import Mathlib

/-!
The package `buffer` of goja_nodejs: a shallow embedding of its codec and allocation core.

The Go source `buffer/buffer.go` is embedded function by function, under the names of the
source.  Go byte slices are modelled over an explicit store of backing arrays, so that the
aliasing between `buf`, `buf[:0]` and the slices handed out by `expandSlice` is the aliasing
of the program.  A failure is a value of `Failure`; a loop or recursion that the source does
not bound takes a `fuel` argument and answers `none` when the fuel does not suffice.

Library routines the source calls (`encoding/hex`, `encoding/base64`, `base64dec`, `x/text`,
the script engine) are embedded by what they compute; each such definition names the routine.
Definitions come first, theorems after them.
-/

namespace Buffer

/-! ## Bytes, strings, failures -/

/-- A Go `byte`. -/
abbrev Byte := Fin 256

/-- A Go `string`: an immutable sequence of bytes. -/
abbrev GoString := List Byte

/-- The byte of a character code, `byte(n)`. -/
def byteOf (n : Nat) : Byte := ⟨n % 256, Nat.mod_lt _ (by decide)⟩

/-- The bytes of an ASCII literal. -/
def ascii (s : String) : GoString := s.toList.map (fun c => byteOf c.toNat)

/-- How an operation can end other than by returning. -/
inductive Failure where
  /-- TypeError carrying the code `ERR_INVALID_ARG_TYPE`. -/
  | invalidArgType
  /-- TypeError carrying the code `ERR_UNKNOWN_ENCODING`. -/
  | unknownEncoding
  /-- TypeError "... is not implemented yet" of the constructor. -/
  | notImplemented
  /-- An error raised by the host engine or by script code it runs. -/
  | hostError
  /-- A Go run-time panic: index or slice bounds out of range, `makeslice`. -/
  | runtimePanic
  /-- TypeError without a code raised by `mod` or `WrapBytes` ("Could not extract Buffer",
  "Buffer.from is not a function"), or by the engine's `ToObject`. -/
  | typeError
deriving DecidableEq, Repr

deriving instance DecidableEq for Except

/-! ## Slices over a store of backing arrays -/

/-- The store: backing array number `k` is `h[k]`. -/
abbrev Heap := List (List Byte)

/-- A Go slice header: backing array, offset of element 0, length, capacity. -/
structure Slice where
  arr : Nat
  off : Nat
  len : Nat
  cap : Nat
deriving DecidableEq, Repr

/-- The `nil` slice: length and capacity 0. -/
def nilSlice : Slice := ⟨0, 0, 0, 0⟩

/-- The backing array `k` of the store. -/
def Heap.array (h : Heap) (k : Nat) : List Byte := h.getD k []

/-- The elements `s[0], ..., s[len-1]` of a slice. -/
def Slice.bytes (h : Heap) (s : Slice) : List Byte :=
  ((h.array s.arr).drop s.off).take s.len

/-- Go `make([]byte, n)` for a length in range: a fresh zeroed array of length and capacity
`n`.  The range check of the Go runtime is `makeslice`, below. -/
def make (h : Heap) (n : Nat) : Heap × Slice :=
  (h ++ [List.replicate n 0], ⟨h.length, 0, n, n⟩)

/-- Go runtime `maxAlloc` on 64-bit Linux, `1 << 48`: the largest allocation `makeslice`
accepts.  (An allocation within this limit that exceeds the memory of the machine ends the
process; that is not modelled.) -/
def maxAlloc : Nat := 281474976710656

/-- Go `make([]byte, n)` for a length computed at run time, the runtime's `makeslice`: the
panic `makeslice: len out of range` when `n` is negative or above `maxAlloc`. -/
def makeslice (h : Heap) (n : Int) : Except Failure (Heap × Slice) :=
  if n < 0 ∨ (maxAlloc : Int) < n then .error .runtimePanic else .ok (make h n.toNat)

/-- Go `s[lo:hi]`; panics unless `lo ≤ hi ≤ cap(s)`. -/
def Slice.slice (s : Slice) (lo hi : Nat) : Except Failure Slice :=
  if lo ≤ hi ∧ hi ≤ s.cap then
    .ok ⟨s.arr, s.off + lo, hi - lo, s.cap - lo⟩
  else .error .runtimePanic

/-- Go `s[:hi]`. -/
def Slice.sliceTo (s : Slice) (hi : Nat) : Except Failure Slice := s.slice 0 hi

/-- Go `s[lo:]`; panics unless `lo ≤ len(s)`. -/
def Slice.sliceFrom (s : Slice) (lo : Nat) : Except Failure Slice := s.slice lo s.len

/-- Overwrite positions `pos, pos+1, ...` of array `k` with `bs`. -/
def Heap.write (h : Heap) (k : Nat) (pos : Nat) (bs : List Byte) : Heap :=
  h.set k ((h.array k).take pos ++ bs ++ (h.array k).drop (pos + bs.length))

/-- Go `s[i] = v`; panics unless `i < len(s)`. -/
def Slice.store (h : Heap) (s : Slice) (i : Nat) (v : Byte) : Except Failure Heap :=
  if i < s.len then .ok (h.write s.arr (s.off + i) [v]) else .error .runtimePanic

/-- Go `copy(dst, src)` for a source given by its bytes (a string, or a slice
read before the copy, which is what the overlap-safe `copy` observes): writes
`min(len(dst), len(src))` bytes and returns that count. -/
def copyBytes (h : Heap) (dst : Slice) (src : List Byte) : Heap × Nat :=
  let n := min dst.len src.length
  (h.write dst.arr dst.off (src.take n), n)

/-- Go `copy(dst, src)` between two slices. -/
def copySlice (h : Heap) (dst src : Slice) : Heap × Nat :=
  copyBytes h dst (src.bytes h)

/-! ## The growth helper -/

/-- Source `expandSlice(b, l)`: returns `(dst, res)`.  The length `len(b) + l` is the length of
a slice in memory plus a length derived from a string in memory, within the range of
`makeslice`. -/
def expandSlice (h : Heap) (b : Slice) (l : Nat) : Except Failure (Heap × Slice × Slice) :=
  if b.cap - b.len < l then
    let (h1, b1) := make h (b.len + l)
    let (h2, _) := copySlice h1 b1 b
    do
      let dst ← b1.sliceFrom b.len
      pure (h2, dst, b1)
  else do
    let dst ← b.slice b.len (b.len + l)
    let res ← b.sliceTo (b.len + l)
    pure (h, dst, res)

/-! ## hex -/

/-- Go `encoding/hex`: the digit table `"0123456789abcdef"`. -/
def hextable : List Byte := ascii "0123456789abcdef"

/-- Go `encoding/hex`: `reverseHexTable`, with `none` for the entries `0xff`. -/
def fromHexChar (c : Byte) : Option Nat :=
  if 48 ≤ c.val ∧ c.val ≤ 57 then some (c.val - 48)
  else if 97 ≤ c.val ∧ c.val ≤ 102 then some (c.val - 97 + 10)
  else if 65 ≤ c.val ∧ c.val ≤ 70 then some (c.val - 65 + 10)
  else none

/-- Go `hex.DecodedLen`. -/
def hexDecodedLen (x : Nat) : Nat := x / 2

/-- Go `hex.EncodeToString`: two digits per byte, high nibble first. -/
def hexEncodeToString : List Byte → GoString
  | [] => []
  | v :: rest =>
    hextable.getD (v.val / 16) 0 :: hextable.getD (v.val % 16) 0 :: hexEncodeToString rest

/-- Go `hex.Decode(dst, src)`, the loop started at output index `i`: returns
the store, the number of bytes written and whether an error is reported.  A
pair with an invalid digit stops the loop; so does an odd trailing character
(reported as an invalid byte or as `ErrLength`, an error either way). -/
def hexDecodeFrom (h : Heap) (dst : Slice) : List Byte → Nat → Except Failure (Heap × Nat × Bool)
  | [], i => .ok (h, i, false)
  | [_], i => .ok (h, i, true)
  | p :: q :: rest, i =>
    match fromHexChar p, fromHexChar q with
    | some a, some b =>
      match dst.store h i (byteOf (a * 16 + b)) with
      | .ok h1 => hexDecodeFrom h1 dst rest (i + 1)
      | .error e => .error e
    | _, _ => .ok (h, i, true)

/-- Go `hex.Decode(dst, src)`. -/
def hexDecode (h : Heap) (dst : Slice) (src : List Byte) : Except Failure (Heap × Nat × Bool) :=
  hexDecodeFrom h dst src 0

/-- Source `hexCodec.DecodeAppend(s, b)`. -/
def hexCodec.DecodeAppend (h : Heap) (s : GoString) (b : Slice) : Except Failure (Heap × Slice) := do
  let l := hexDecodedLen s.length
  let (h1, dst, res) ← expandSlice h b l
  let (h2, n, err) ← hexDecode h1 dst s
  if err then
    let res1 ← res.sliceTo (b.len + n)
    pure (h2, res1)
  else
    pure (h2, res)

/-- Source `hexCodec.Encode(b)`. -/
def hexCodec.Encode (b : List Byte) : GoString := hexEncodeToString b

/-- The bytes of the slice an operation returns. -/
def resultBytes (r : Except Failure (Heap × Slice)) : Except Failure (List Byte) :=
  r.map (fun p => p.2.bytes p.1)


/-! ## hex: what the decoder computes, and the reading of the specification -/

/-- The bytes `hex.Decode` produces: the leading pairs of hex digits. -/
def hexPairs : List Byte → List Byte
  | p :: q :: rest =>
    match fromHexChar p, fromHexChar q with
    | some a, some b => byteOf (a * 16 + b) :: hexPairs rest
    | _, _ => []
  | _ => []

/-- Whether `hex.Decode` reports an error. -/
def hexErr : List Byte → Bool
  | [] => false
  | [_] => true
  | p :: q :: rest =>
    match fromHexChar p, fromHexChar q with
    | some _, some _ => hexErr rest
    | _, _ => true


/-- A hexadecimal digit, either case. -/
def isHexDigit (c : Byte) : Bool :=
  (48 ≤ c.val && c.val ≤ 57) || (97 ≤ c.val && c.val ≤ 102) || (65 ≤ c.val && c.val ≤ 70)

/-- The value a hexadecimal digit denotes. -/
def hexDigitValue (c : Byte) : Nat :=
  if c.val ≤ 57 then c.val - 48 else if c.val ≤ 70 then c.val - 55 else c.val - 87

/-- The bytes denoted by the consecutive two-character pairs of a text. -/
def pairBytes : List Byte → List Byte
  | p :: q :: rest => byteOf (16 * hexDigitValue p + hexDigitValue q) :: pairBytes rest
  | _ => []

/-- The number of leading two-character pairs made of hex digits only. -/
def hexValidPairs (s : List Byte) : Nat := (s.takeWhile isHexDigit).length / 2


/-! ## base64 -/

/-- Go `encoding/base64`: the standard alphabet `encodeStd`. -/
def encodeStd : List Byte :=
  ascii "ABCDEFGHIJKLMNOPQRSTUVWXYZabcdefghijklmnopqrstuvwxyz0123456789+/"

/-- Go `encoding/base64`: the URL-safe alphabet `encodeURL`. -/
def encodeURL : List Byte :=
  ascii "ABCDEFGHIJKLMNOPQRSTUVWXYZabcdefghijklmnopqrstuvwxyz0123456789-_"

/-- Go `base64.StdPadding`, the character `=`. -/
def stdPadding : Byte := 61

/-- Go `(*Encoding).EncodeToString` for an alphabet and an optional padding
character: three bytes become four characters; a remainder of one or two
bytes becomes two or three characters, padded to four when padding is on. -/
def base64EncodeToString (alphabet : List Byte) (pad : Option Byte) : List Byte → GoString
  | a :: b :: c :: rest =>
    let val := a.val * 65536 + b.val * 256 + c.val
    alphabet.getD (val / 262144 % 64) 0 :: alphabet.getD (val / 4096 % 64) 0
      :: alphabet.getD (val / 64 % 64) 0 :: alphabet.getD (val % 64) 0
      :: base64EncodeToString alphabet pad rest
  | [a, b] =>
    let val := a.val * 65536 + b.val * 256
    [alphabet.getD (val / 262144 % 64) 0, alphabet.getD (val / 4096 % 64) 0,
      alphabet.getD (val / 64 % 64) 0] ++ pad.toList
  | [a] =>
    let val := a.val * 65536
    [alphabet.getD (val / 262144 % 64) 0, alphabet.getD (val / 4096 % 64) 0]
      ++ pad.toList ++ pad.toList
  | [] => []

/-- Go `base64.RawStdEncoding.DecodedLen(n)`: `n * 6 / 8`. -/
def rawDecodedLen (n : Nat) : Nat := n * 6 / 8

/-- Library `base64dec`: the decode table, which accepts both alphabets
(`+` and `-` are 62, `/` and `_` are 63); `none` for the entries `0xff`. -/
def base64DecodeMap (c : Byte) : Option Nat :=
  if 65 ≤ c.val ∧ c.val ≤ 90 then some (c.val - 65)
  else if 97 ≤ c.val ∧ c.val ≤ 122 then some (c.val - 97 + 26)
  else if 48 ≤ c.val ∧ c.val ≤ 57 then some (c.val - 48 + 52)
  else if c.val = 43 ∨ c.val = 45 then some 62
  else if c.val = 47 ∨ c.val = 95 then some 63
  else none

/-- Library `base64dec`: the bytes of one quantum of 6-bit values.  Four
values give three bytes; a final short quantum of three or two values gives
two or one bytes, and a single value gives none. -/
def quantumBytes : List Nat → List Byte
  | [a, b, c, d] =>
    let val := a * 262144 + b * 4096 + c * 64 + d
    [byteOf (val / 65536), byteOf (val / 256), byteOf val]
  | [a, b, c] =>
    let val := a * 262144 + b * 4096 + c * 64
    [byteOf (val / 65536), byteOf (val / 256)]
  | [a, b] =>
    let val := a * 262144 + b * 4096
    [byteOf (val / 65536)]
  | _ => []

/-- Library `base64dec`: the bytes `DecodeBase64` produces, with `acc` the
values of the quantum being read.  Alphabet characters are collected four at
a time; `\n` and `\r` are skipped; the end of the text, a padding character
or any other character ends the decoding with the bytes of the quantum read
so far. -/
def base64DecodeBytes : List Byte → List Nat → List Byte
  | [], acc => quantumBytes acc
  | c :: rest, acc =>
    match base64DecodeMap c with
    | some v =>
      if acc.length = 3 then quantumBytes (acc ++ [v]) ++ base64DecodeBytes rest []
      else base64DecodeBytes rest (acc ++ [v])
    | none =>
      if c.val = 10 ∨ c.val = 13 then base64DecodeBytes rest acc
      else quantumBytes acc

/-- Library `base64dec.DecodeBase64(dst, src)`: writes the decoded bytes to
the front of `dst` and returns their number; writing past `len(dst)` is an
index panic.  The error value it also returns is not modelled: the one caller
in this package that reaches script code discards it. -/
def DecodeBase64 (h : Heap) (dst : Slice) (src : GoString) : Except Failure (Heap × Nat) :=
  let out := base64DecodeBytes src []
  if out.length ≤ dst.len then .ok ((copyBytes h dst out).1, out.length)
  else .error .runtimePanic

/-- Source `Base64DecodeAppend(dst, src)`, without its error result. -/
def Base64DecodeAppend (h : Heap) (dst : Slice) (src : GoString) :
    Except Failure (Heap × Slice) := do
  let l := rawDecodedLen src.length
  let (h1, d, res) ← expandSlice h dst l
  let (h2, n) ← DecodeBase64 h1 d src
  let res1 ← res.sliceTo (dst.len + n)
  pure (h2, res1)

/-- Source `base64Codec.DecodeAppend(s, b)`; `base64UrlCodec` embeds
`base64Codec` and inherits this method. -/
def base64Codec.DecodeAppend (h : Heap) (s : GoString) (b : Slice) :
    Except Failure (Heap × Slice) :=
  Base64DecodeAppend h b s

/-- Source `base64Codec.Encode(b)`: `base64.StdEncoding`, padded. -/
def base64Codec.Encode (b : List Byte) : GoString :=
  base64EncodeToString encodeStd (some stdPadding) b

/-- Source `base64UrlCodec.Encode(b)`: `base64.RawURLEncoding`, unpadded. -/
def base64UrlCodec.Encode (b : List Byte) : GoString :=
  base64EncodeToString encodeURL none b

/-! ## utf8 -/

/-- Go `unicode/utf8`: what stands at the head of a byte sequence. -/
inductive RuneShape where
  /-- A well-formed encoding of `n` bytes. -/
  | valid (n : Nat)
  /-- An ill-formed sequence whose maximal subpart has `n` bytes. -/
  | invalid (n : Nat)
deriving DecidableEq, Repr

/-- Go `unicode/utf8`: a continuation byte, `0x80..0xBF`. -/
def isCont (c : Byte) : Bool := 128 ≤ c.val && c.val ≤ 191

/-- Go `unicode/utf8`, table `first` with `acceptRanges`: for a leading byte,
the length of the encoding and the range allowed for the second byte. -/
def utf8First (c : Byte) : Option (Nat × Nat × Nat) :=
  if 194 ≤ c.val ∧ c.val ≤ 223 then some (2, 128, 191)
  else if c.val = 224 then some (3, 160, 191)
  else if 225 ≤ c.val ∧ c.val ≤ 236 then some (3, 128, 191)
  else if c.val = 237 then some (3, 128, 159)
  else if 238 ≤ c.val ∧ c.val ≤ 239 then some (3, 128, 191)
  else if c.val = 240 then some (4, 144, 191)
  else if 241 ≤ c.val ∧ c.val ≤ 243 then some (4, 128, 191)
  else if c.val = 244 then some (4, 128, 143)
  else none

/-- The shape of the sequence starting with byte `c` followed by `rest`. -/
def runeShape (c : Byte) (rest : List Byte) : RuneShape :=
  if c.val < 128 then .valid 1
  else match utf8First c with
    | none => .invalid 1
    | some (size, lo, hi) =>
      match rest with
      | [] => .invalid 1
      | c1 :: r1 =>
        if c1.val < lo ∨ hi < c1.val then .invalid 1
        else if size = 2 then .valid 2
        else match r1 with
          | [] => .invalid 2
          | c2 :: r2 =>
            if !isCont c2 then .invalid 2
            else if size = 3 then .valid 3
            else match r2 with
              | [] => .invalid 3
              | c3 :: _ => if !isCont c3 then .invalid 3 else .valid 4

/-- The UTF-8 encoding of U+FFFD. -/
def runeError : List Byte := [239, 191, 189]

/-- Library `x/text`: the encoder of `unicode.UTF8`, `runes.ReplaceIllFormed`:
well-formed sequences are copied and every byte that is not part of one is
replaced by U+FFFD.  `keep` counts the bytes of the current sequence still to
be copied. -/
def replaceIllFormed : List Byte → Nat → List Byte
  | [], _ => []
  | c :: rest, keep + 1 => c :: replaceIllFormed rest keep
  | c :: rest, 0 =>
    match runeShape c rest with
    | .valid n => c :: replaceIllFormed rest (n - 1)
    | .invalid _ => runeError ++ replaceIllFormed rest 0

/-- Library `x/text`: the decoder of `unicode.UTF8`: well-formed sequences are
copied and every maximal ill-formed subpart is replaced by one U+FFFD.  `keep`
counts bytes still to be copied, `skip` bytes still to be dropped. -/
def utf8DecoderBytes : List Byte → Nat → Nat → List Byte
  | [], _, _ => []
  | c :: rest, keep + 1, _ => c :: utf8DecoderBytes rest keep 0
  | _ :: rest, 0, skip + 1 => utf8DecoderBytes rest 0 skip
  | c :: rest, 0, 0 =>
    match runeShape c rest with
    | .valid n => c :: utf8DecoderBytes rest (n - 1) 0
    | .invalid n => runeError ++ utf8DecoderBytes rest 0 (n - 1)

/-- Source `_utf8Codec.DecodeAppend(s, b)`. -/
def _utf8Codec.DecodeAppend (h : Heap) (s : GoString) (b : Slice) :
    Except Failure (Heap × Slice) := do
  let r := replaceIllFormed s 0
  let (h1, dst, res) ← expandSlice h b r.length
  let (h2, _) := copyBytes h1 dst r
  pure (h2, res)

/-- Source `_utf8Codec.Encode(b)`. -/
def _utf8Codec.Encode (b : List Byte) : GoString := utf8DecoderBytes b 0 0

/-! ## The codec registry -/

/-- The implementations of the interface `StringCodec`. -/
inductive StringCodec where
  | hex
  | utf8
  | base64
  | base64Url
deriving DecidableEq, Repr

/-- Method `DecodeAppend` of a codec. -/
def StringCodec.DecodeAppend (c : StringCodec) (h : Heap) (s : GoString) (b : Slice) :
    Except Failure (Heap × Slice) :=
  match c with
  | .hex => hexCodec.DecodeAppend h s b
  | .utf8 => _utf8Codec.DecodeAppend h s b
  | .base64 => base64Codec.DecodeAppend h s b
  | .base64Url => base64Codec.DecodeAppend h s b

/-- Method `Encode` of a codec. -/
def StringCodec.Encode (c : StringCodec) (b : List Byte) : GoString :=
  match c with
  | .hex => hexCodec.Encode b
  | .utf8 => _utf8Codec.Encode b
  | .base64 => base64Codec.Encode b
  | .base64Url => base64UrlCodec.Encode b

/-- Source `utf8Codec`. -/
def utf8Codec : StringCodec := .utf8

/-- Source `stringCodecs`: the map from encoding names to codecs; `none` is
the nil a Go map lookup gives for a missing key. -/
def stringCodecs (name : GoString) : Option StringCodec :=
  if name = ascii "hex" then some .hex
  else if name = ascii "utf8" then some utf8Codec
  else if name = ascii "utf-8" then some utf8Codec
  else if name = ascii "base64" then some .base64
  else if name = ascii "base64Url" then some .base64Url
  else none

/-- Source `StringCodecByName`. -/
def StringCodecByName (name : GoString) : Option StringCodec := stringCodecs name

/-! ## Script values, as the package observes them through the engine -/

/-- A float64: not-a-number, an infinity, or the finite value `m * 2^e`. -/
inductive F64 where
  | nan
  | posInf
  | negInf
  | fin (m : Int) (e : Int)
deriving DecidableEq, Repr

/-- A script value.  An object is named by its identity. -/
inductive Value where
  | undefined
  | null
  | bool (b : Bool)
  | int (i : Int)
  | float (f : F64)
  | str (s : GoString)
  | obj (id : Nat)
deriving DecidableEq, Repr

/-- The results of `ExportType()` the package tells apart. -/
inductive ExportKind where
  /-- The type `reflectTypeArrayBuffer`. -/
  | arrayBuffer
  /-- The type `reflectTypeString`. -/
  | string
  /-- The type `reflectTypeInt`. -/
  | int
  /-- The type `reflectTypeFloat`. -/
  | float
  /-- The type `reflectTypeBytes`. -/
  | bytes
  /-- Any other type. -/
  | other
deriving DecidableEq, Repr

/-- How a call into the engine or into script code ends. -/
inductive Outcome (α : Type) where
  /-- It returns a value. -/
  | returns (v : α)
  /-- It throws; the package lets the exception pass. -/
  | throws
deriving DecidableEq, Repr

/-- The outcome as a result of the package: a thrown exception is a `hostError`. -/
def Outcome.run {α : Type} : Outcome α → Except Failure α
  | .returns v => .ok v
  | .throws => .error .hostError

/-- What the engine answers about one object. -/
structure ObjectInfo where
  /-- Result of `o.ExportType()`. -/
  exportType : ExportKind
  /-- Result of `o.Export().([]byte)`, for an object exporting bytes. -/
  exportBytes : List Byte
  /-- Outcome of `o.String()`, which runs the object's `toString`, `valueOf` or
  `Symbol.toPrimitive` and can throw. -/
  string : Outcome GoString
  /-- Outcome of `o.ToInteger()`. -/
  toInteger : Outcome Int
  /-- Outcome of `o.ToNumber()`. -/
  toNumber : Outcome Value
  /-- Property `o.Get("valueOf")`: `none` when it is not callable, else the outcome of calling it on `o`. -/
  valueOf : Option (Outcome Value)
  /-- Property `o.GetSymbol(SymToPrimitive)`: `none` when nil, `some none` when not callable, else the
  outcome of calling it on `o` with the hint `"string"`. -/
  toPrimitive : Option (Option (Outcome Value))
  /-- Property `o.Get("length")`, `none` for nil. -/
  length : Option Value
  /-- Property `o.Get(strconv.Itoa(i))`, the integer-indexed property `i`; `none` for nil. -/
  item : Nat → Option Value
  /-- Result of `r.InstanceOf(o, uint8ArrayCtorObj)`. -/
  isUint8Array : Bool

/-- The engine and platform the package runs on. -/
structure Host where
  /-- The objects of the runtime, by identity. -/
  objects : Nat → ObjectInfo
  /-- Result of `String()` for an integer value. -/
  intString : Int → GoString
  /-- Result of `String()` for a float value. -/
  floatString : F64 → GoString
  /-- Result of `ToInteger()` for a string value. -/
  strToInteger : GoString → Int
  /-- Result of `ToNumber()` for a string value. -/
  strToNumber : GoString → Value
  /-- Go `int64(f)` for a finite `f` whose truncation, given as argument, is outside the
  range of `int64`: the result is platform-defined. -/
  int64Overflow : Int → Int
  /-- The host's byte-array-view constructor applied to the arguments of the array-buffer
  path: the bytes of the view it builds, or its error. -/
  uint8ArrayCtor : List Value → Outcome (List Byte)

/-- Go `math.MaxInt64`. -/
def maxInt64 : Int := 9223372036854775807

/-- Go `math.MinInt64`. -/
def minInt64 : Int := -9223372036854775808

/-- The finite float `m * 2^e` truncated toward zero. -/
def truncF64 (m e : Int) : Int :=
  if 0 ≤ e then m * 2 ^ e.toNat else Int.tdiv m (2 ^ (-e).toNat)

/-- Engine `valueFloat.ToInteger()`. -/
def F64.toInteger (host : Host) : F64 → Int
  | .nan => 0
  | .posInf => maxInt64
  | .negInf => minInt64
  | .fin m e =>
    let t := truncF64 m e
    if minInt64 ≤ t ∧ t ≤ maxInt64 then t else host.int64Overflow t

/-- Engine `v.ExportType()`, up to the distinctions the package makes. -/
def Value.ExportType (host : Host) : Value → ExportKind
  | .int _ => .int
  | .float _ => .float
  | .str _ => .string
  | .obj o => (host.objects o).exportType
  | _ => .other

/-- Engine `v.String()`. -/
def Value.String (host : Host) : Value → Except Failure GoString
  | .undefined => .ok (ascii "undefined")
  | .null => .ok (ascii "null")
  | .bool true => .ok (ascii "true")
  | .bool false => .ok (ascii "false")
  | .int i => .ok (host.intString i)
  | .float f => .ok (host.floatString f)
  | .str s => .ok s
  | .obj o => (host.objects o).string.run

/-- Engine `v.ToInteger()`. -/
def Value.ToInteger (host : Host) : Value → Except Failure Int
  | .undefined => .ok 0
  | .null => .ok 0
  | .bool b => .ok (if b then 1 else 0)
  | .int i => .ok i
  | .float f => .ok (f.toInteger host)
  | .str s => .ok (host.strToInteger s)
  | .obj o => (host.objects o).toInteger.run

/-- Engine `v.ToNumber()`. -/
def Value.ToNumber (host : Host) : Value → Except Failure Value
  | .undefined => .ok (.float .nan)
  | .null => .ok (.int 0)
  | .bool b => .ok (.int (if b then 1 else 0))
  | .int i => .ok (.int i)
  | .float f => .ok (.float f)
  | .str s => .ok (host.strToNumber s)
  | .obj o => (host.objects o).toNumber.run

/-- Engine `sobek.IsUndefined`. -/
def IsUndefined (v : Value) : Bool := v = .undefined

/-- Engine `sobek.IsNaN`. -/
def IsNaN (v : Value) : Bool := v = .float .nan

/-- Engine `sobek.IsInfinity`. -/
def IsInfinity (v : Value) : Bool := v = .float .posInf || v = .float .negInf

/-- Engine `call.Argument(i)`: the argument, or undefined when absent. -/
def Argument (args : List Value) (i : Nat) : Value := args.getD i .undefined

/-- Go `byte(i)` for an `int64`: the low eight bits. -/
def byteOfInt (i : Int) : Byte := byteOf (i % 256).toNat

/-! ## Construction, allocation and instance operations -/

/-- Source `isNumber`. -/
def isNumber (host : Host) (v : Value) : Bool :=
  match v.ExportType host with
  | .int => true
  | .float => true
  | _ => false

/-- Source `isString`. -/
def isString (host : Host) (v : Value) : Bool := v.ExportType host = .string

/-- Source `Buffer.fromBytes`: the host constructor over a new array buffer holding `data`
builds a view of exactly these bytes. -/
def fromBytes (data : List Byte) : Except Failure (List Byte) := .ok data

/-- Source `Buffer.fromString`. -/
def fromString (str enc : GoString) : Except Failure (List Byte) :=
  let codec := match stringCodecs enc with
    | some c => c
    | none => utf8Codec
  match codec.DecodeAppend [] str nilSlice with
  | .ok (h, res) => fromBytes (res.bytes h)
  | .error e => .error e

/-- Source `Buffer.getStringCodec`. -/
def getStringCodec (host : Host) (enc : Value) : Except Failure StringCodec :=
  if !IsUndefined enc then
    match enc.String host with
    | .error e => .error e
    | .ok name =>
      match stringCodecs name with
      | some codec => .ok codec
      | none => .error .unknownEncoding
  else .ok utf8Codec

/-- The loop of `Buffer.fill`, `for i := len(b1); i < len(buf); { i += copy(buf[i:], buf[:i]) }`,
run for at most `fuel` tests of its condition; `none` when they do not suffice. -/
def fillLoop (buf : Slice) : Nat → Heap → Nat → Option (Except Failure Heap)
  | 0, _, _ => none
  | fuel + 1, h, i =>
    if i < buf.len then
      match buf.sliceFrom i, buf.sliceTo i with
      | .ok d, .ok s =>
        let (h1, n) := copySlice h d s
        fillLoop buf fuel h1 (i + n)
      | .error e, _ => some (.error e)
      | _, .error e => some (.error e)
    else some (.ok h)

/-- Source `Buffer.fill(buf, fill, enc)`. -/
def fill (fuel : Nat) (host : Host) (h : Heap) (buf : Slice) (fillStr : GoString) (enc : Value) :
    Option (Except Failure (Heap × Slice)) :=
  match getStringCodec host enc with
  | .error e => some (.error e)
  | .ok codec =>
    match buf.sliceTo 0 with
    | .error e => some (.error e)
    | .ok buf0 =>
      match codec.DecodeAppend h fillStr buf0 with
      | .error e => some (.error e)
      | .ok (h1, b1) =>
        if b1.len > buf.len then
          match b1.sliceTo buf.len with
          | .ok r => some (.ok (h1, r))
          | .error e => some (.error e)
        else
          match fillLoop buf fuel h1 b1.len with
          | none => none
          | some (.error e) => some (.error e)
          | some (.ok h2) => some (.ok (h2, buf))

/-- The loop `for i := range buf { buf[i] = fillByte }` of `Buffer.alloc`, from index `i` with
`k` indices left. -/
def storeAll (buf : Slice) (v : Byte) : Nat → Nat → Heap → Except Failure Heap
  | 0, _, h => .ok h
  | k + 1, i, h =>
    match buf.store h i v with
    | .ok h1 => storeAll buf v k (i + 1) h1
    | .error e => .error e

/-- Source `Buffer.alloc`, on the argument list of the call: the bytes of the buffer it
returns, or how it fails; `none` when `fuel` does not suffice for the fill loop. -/
def alloc (fuel : Nat) (host : Host) (args : List Value) : Option (Except Failure (List Byte)) :=
  let arg0 := Argument args 0
  match (if isNumber host arg0 then arg0.ToInteger host else .ok (-1)) with
  | .error e => some (.error e)
  | .ok size =>
    if size < 0 then some (.error .invalidArgType)
    else
      let fillv := Argument args 1
      match makeslice [] size with
      | .error e => some (.error e)
      | .ok (h, buf) =>
      if !IsUndefined fillv then
        if isString host fillv then
          let a := Argument args 2
          let enc := if isString host a then a else .undefined
          match fillv.String host with
          | .error e => some (.error e)
          | .ok fillStr =>
          match fill fuel host h buf fillStr enc with
          | none => none
          | some (.error e) => some (.error e)
          | some (.ok (h1, buf1)) => some (fromBytes (buf1.bytes h1))
        else
          match fillv.ToNumber host with
          | .error e => some (.error e)
          | .ok num =>
            if !IsNaN num && !IsInfinity num then
              match num.ToInteger host with
              | .error e => some (.error e)
              | .ok n =>
                let fillByte := byteOfInt n
                if fillByte ≠ 0 then
                  match storeAll buf fillByte buf.len 0 h with
                  | .ok h1 => some (fromBytes (buf.bytes h1))
                  | .error e => some (.error e)
                else some (fromBytes (buf.bytes h))
            else some (fromBytes (buf.bytes h))
      else some (fromBytes (buf.bytes h))

/-- The array-like loop of `Buffer._from`, from index `i` with `k` indices left. -/
def fromItems (host : Host) (info : ObjectInfo) (a : Slice) :
    Nat → Nat → Heap → Except Failure Heap
  | 0, _, h => .ok h
  | k + 1, i, h =>
    match info.item i with
    | some item =>
      match item.ToInteger host with
      | .ok n =>
        match a.store h i (byteOfInt n) with
        | .ok h1 => fromItems host info a k (i + 1) h1
        | .error e => .error e
      | .error e => .error e
    | none => fromItems host info a k (i + 1) h

/-- The array-like branch of `Buffer._from`, and the final `InvalidArgType` when the object
has no `length`. -/
def fromArrayLike (host : Host) (info : ObjectInfo) : Except Failure (List Byte) :=
  match info.length with
  | some v =>
    match v.ToInteger host with
    | .error e => .error e
    | .ok length =>
      match makeslice [] length with
      | .error e => .error e
      | .ok (h, a) =>
        match fromItems host info a length.toNat 0 h with
        | .ok h1 => fromBytes (a.bytes h1)
        | .error e => .error e
  | none => .error .invalidArgType

/-- What one activation of `Buffer._from` does: it returns or panics, or it ends in the
call `return b._from(args...)` on a changed argument list. -/
inductive FromStep where
  | done (r : Except Failure (List Byte))
  | again (args : List Value)
deriving DecidableEq

/-- The body of `Buffer._from(args...)`. -/
def fromStep (host : Host) : List Value → FromStep
  | [] => .done (.error .invalidArgType)
  | arg :: rest =>
    match arg.ExportType host with
    | .arrayBuffer => .done (host.uint8ArrayCtor (arg :: rest)).run
    | .string =>
      let enc : Except Failure GoString := match rest with
        | e :: _ => e.String host
        | [] => .ok []
      match enc, arg.String host with
      | .ok enc1, .ok str => .done (fromString str enc1)
      | .error e, _ => .done (.error e)
      | _, .error e => .done (.error e)
    | _ =>
      match arg with
      | .obj o =>
        let info := host.objects o
        if info.exportType = .bytes then .done (fromBytes info.exportBytes)
        else
          let afterValueOf : FromStep :=
            match info.toPrimitive with
            | some (some (.returns str)) => .again (str :: rest)
            | some (some .throws) => .done (.error .hostError)
            | _ => .done (fromArrayLike host info)
          match info.valueOf with
          | some .throws => .done (.error .hostError)
          | some (.returns valueOf) =>
            if valueOf ≠ .obj o then .again (valueOf :: rest)
            else afterValueOf
          | none => afterValueOf
      | _ => .done (.error .invalidArgType)

/-- Source `Buffer._from(args...)`, with `fuel` bounding the depth of its recursion; `none`
when the recursion is deeper. -/
def _from (host : Host) : Nat → List Value → Option (Except Failure (List Byte))
  | 0, _ => none
  | fuel + 1, args =>
    match fromStep host args with
    | .done r => some r
    | .again args1 => _from host fuel args1

/-- Source `Buffer.from`. -/
def «from» (host : Host) (fuel : Nat) (args : List Value) : Option (Except Failure (List Byte)) :=
  _from host fuel args

/-- Source `Bytes(r, v)`: the exported bytes of a byte-exporting object, else the bytes of
`v.String()`. -/
def Bytes (host : Host) (v : Value) : Except Failure (List Byte) :=
  match v with
  | .obj o =>
    if (host.objects o).exportType = .bytes then .ok (host.objects o).exportBytes
    else (host.objects o).string.run
  | _ => v.String host

/-- Source `Buffer.proto_toString`, on the receiver and the argument list. -/
def proto_toString (host : Host) (this : Value) (args : List Value) : Except Failure GoString :=
  match Bytes host this with
  | .error e => .error e
  | .ok bb =>
    match getStringCodec host (Argument args 0) with
    | .ok codec => .ok (codec.Encode bb)
    | .error e => .error e

/-! ## A concrete host for closed examples -/

/-- An ordinary object with the given `length` and indexed properties: it exports no bytes,
its inherited `valueOf` returns the object itself, and it has no `Symbol.toPrimitive`. -/
def plainObject (id : Nat) (length : Option Value) (item : Nat → Option Value) : ObjectInfo where
  exportType := .other
  exportBytes := []
  string := .returns (ascii "[object Object]")
  toInteger := .returns 0
  toNumber := .returns (.float .nan)
  valueOf := some (.returns (.obj id))
  toPrimitive := none
  length := length
  item := item
  isUint8Array := false

/-- A host whose objects are given by `objects`; strings convert to the number 0 and the
array-buffer path is not used. -/
def hostWith (objects : Nat → ObjectInfo) : Host where
  objects := objects
  intString := fun _ => ascii "0"
  floatString := fun _ => ascii "NaN"
  strToInteger := fun _ => 0
  strToNumber := fun _ => .int 0
  int64Overflow := fun _ => minInt64
  uint8ArrayCtor := fun _ => .throws

/-- A host in which every object is an empty ordinary object. -/
def plainHost : Host := hostWith (fun id => plainObject id none (fun _ => none))

/-! ## `equals`, the constructor, `EncodeBytes` -/

/-- Engine `r.InstanceOf(v, uint8ArrayCtorObj)`: only an object can be an instance. -/
def InstanceOfUint8Array (host : Host) : Value → Bool
  | .obj o => (host.objects o).isUint8Array
  | _ => false

/-- Go `bytes.Equal(a, b)`: the same length and the same bytes. -/
def bytesEqual : List Byte → List Byte → Bool
  | [], [] => true
  | a :: as, b :: bs => a = b && bytesEqual as bs
  | _, _ => false

/-- Source `Buffer.proto_equals`, on the receiver and the argument list. -/
def proto_equals (host : Host) (this : Value) (args : List Value) : Except Failure Bool :=
  match Bytes host this with
  | .error e => .error e
  | .ok bb =>
    let other := Argument args 0
    if InstanceOfUint8Array host other then
      match Bytes host other with
      | .error e => .error e
      | .ok otherBytes => .ok (bytesEqual bb otherBytes)
    else .error .invalidArgType

/-- Source `Buffer.ctor`, on the argument list of the construction. -/
def ctor (host : Host) (fuel : Nat) (args : List Value) : Option (Except Failure (List Byte)) :=
  let arg := Argument args 0
  match arg.ExportType host with
  | .int => some (.error .notImplemented)
  | .float => some (.error .notImplemented)
  | _ => _from host fuel args

/-- What `mod(r)` finds under the name `Buffer` (the global, or else the export of the
required module), as far as `WrapBytes` looks at it. -/
inductive BufferGlobal where
  /-- Not an object. -/
  | notObject
  /-- An object carrying the package's handle under the symbol `api`. -/
  | withApi
  /-- An object without the handle whose property `from` is callable; `f data` is the
  outcome of calling it on an array buffer holding `data`. -/
  | withFrom (f : List Byte → Outcome Value)
  /-- An object without the handle and without a callable `from`. -/
  | plain

/-- What `EncodeBytes` returns. -/
inductive Encoded where
  /-- The string `codec.Encode(data)`. -/
  | text (s : GoString)
  /-- A Buffer of the package wrapping the given bytes. -/
  | buffer (data : List Byte)
  /-- The object a foreign `from` returned. -/
  | object (v : Value)
deriving DecidableEq, Repr

/-- Source `WrapBytes(r, data)`, with `mod` and `api` resolved to `g`. -/
def WrapBytes (g : BufferGlobal) (data : List Byte) : Except Failure Encoded :=
  match g with
  | .notObject => .error .typeError
  | .withApi =>
    match fromBytes data with
    | .ok b => .ok (.buffer b)
    | .error e => .error e
  | .withFrom f =>
    match f data with
    | .throws => .error .hostError
    | .returns v =>
      if v = .undefined ∨ v = .null then .error .typeError else .ok (.object v)
  | .plain => .error .typeError

/-- Source `EncodeBytes(r, data, enc)`. -/
def EncodeBytes (g : BufferGlobal) (host : Host) (data : List Byte) (enc : Value) :
    Except Failure Encoded :=
  let codec : Except Failure (Option StringCodec) :=
    if !IsUndefined enc then
      match enc.String host with
      | .ok name => .ok (StringCodecByName name)
      | .error e => .error e
    else .ok none
  match codec with
  | .error e => .error e
  | .ok (some c) => .ok (.text (c.Encode data))
  | .ok none => WrapBytes g data

/-! ## Package `process`: the environment -/

/-- Go `strings.SplitN(e, "=", 2)`, scanning `e` with `before` the bytes already passed, in
reverse: the text before the first `=` and the text after it, or the whole text alone when
it has no `=`. -/
def splitAtEq : List Byte → List Byte → List GoString
  | [], before => [before.reverse]
  | c :: rest, before =>
    if c.val = 61 then [before.reverse, rest] else splitAtEq rest (c :: before)

/-- Go `strings.SplitN(e, "=", 2)`. -/
def splitN2 (e : GoString) : List GoString := splitAtEq e []

/-- A Go `map[string]string`, by its entries with the latest assignment first. -/
abbrev EnvMap := List (GoString × GoString)

/-- Go `m[k]`, the lookup. -/
def EnvMap.get (m : EnvMap) (k : GoString) : Option GoString :=
  match m with
  | [] => none
  | (k1, v1) :: rest => if k1 = k then some v1 else EnvMap.get rest k

/-- Go `xs[i]` on a slice of strings: a panic when `i` is out of range. -/
def index (xs : List GoString) (i : Nat) : Except Failure GoString :=
  match xs.get? i with
  | some x => .ok x
  | none => .error .runtimePanic

/-- The loop of `process.Require` over the entries of `os.Environ()`, from the map `m`. -/
def requireLoop : List GoString → EnvMap → Except Failure EnvMap
  | [], m => .ok m
  | e :: rest, m =>
    let envKeyValue := splitN2 e
    match index envKeyValue 0, index envKeyValue 1 with
    | .ok k, .ok v => requireLoop rest ((k, v) :: m)
    | .error err, _ => .error err
    | _, .error err => .error err

/-- Source `process.Require`, on the result of `os.Environ()`: the map it exports as `env`. -/
def Require (environ : List GoString) : Except Failure EnvMap :=
  requireLoop environ []

/-! ## What the codecs compute, and names of the specification -/

/-- The bytes a codec decodes a text to. -/
def decodedBytes : StringCodec → GoString → List Byte
  | .hex, s => hexPairs s
  | .utf8, s => replaceIllFormed s 0
  | .base64, s => base64DecodeBytes s []
  | .base64Url, s => base64DecodeBytes s []

/-- The registered encoding names of the specification. -/
def registeredNames : List GoString :=
  [ascii "hex", ascii "utf8", ascii "utf-8", ascii "base64", ascii "base64Url"]

/-- The byte the specification gives index `i` of an array-like object: the integer value of
the indexed property mod 256, and 0 when the property is missing. -/
def itemByte (host : Host) (info : ObjectInfo) (i : Nat) : Byte :=
  match info.item i with
  | some item =>
    match item.ToInteger host with
    | .ok k => byteOfInt k
    | .error _ => 0
  | none => 0

/-- The array-like object of the specification's example: `length` 3 and the indexed values
10, 300 and undefined. -/
def exampleArrayLike : Host :=
  hostWith (fun id => plainObject id (some (.int 3))
    (fun i => [some (.int 10), some (.int 300), some .undefined].getD i none))

/-! ## Slices in a store; reserved lengths; well-formed UTF-8; example hosts -/

/-- A slice that fits its backing array: `len ≤ cap` and the capacity lies inside the array.
The nil slice fits every store. -/
def Slice.WF (h : Heap) (b : Slice) : Prop :=
  b.len ≤ b.cap ∧ b.off + b.cap ≤ (h.array b.arr).length

/-- The length a codec reserves before decoding a text. -/
def reservedLen : StringCodec → GoString → Nat
  | .hex, s => hexDecodedLen s.length
  | .utf8, s => (replaceIllFormed s 0).length
  | .base64, s => rawDecodedLen s.length
  | .base64Url, s => rawDecodedLen s.length

/-- Well-formed UTF-8 byte sequences (the table of well-formed sequences of the Unicode
standard): a concatenation of encoded scalar values. -/
inductive WellFormed : List Byte → Prop where
  | nil : WellFormed []
  | one (b0 : Byte) (rest : List Byte) : b0.val < 128 → WellFormed rest →
      WellFormed (b0 :: rest)
  | two (b0 b1 : Byte) (rest : List Byte) : 194 ≤ b0.val → b0.val ≤ 223 →
      128 ≤ b1.val → b1.val ≤ 191 → WellFormed rest → WellFormed (b0 :: b1 :: rest)
  | threeE0 (b1 b2 : Byte) (rest : List Byte) : 160 ≤ b1.val → b1.val ≤ 191 →
      128 ≤ b2.val → b2.val ≤ 191 → WellFormed rest → WellFormed (224 :: b1 :: b2 :: rest)
  | three (b0 b1 b2 : Byte) (rest : List Byte) :
      (225 ≤ b0.val ∧ b0.val ≤ 236) ∨ (238 ≤ b0.val ∧ b0.val ≤ 239) →
      128 ≤ b1.val → b1.val ≤ 191 →
      128 ≤ b2.val → b2.val ≤ 191 → WellFormed rest → WellFormed (b0 :: b1 :: b2 :: rest)
  | threeED (b1 b2 : Byte) (rest : List Byte) : 128 ≤ b1.val → b1.val ≤ 159 →
      128 ≤ b2.val → b2.val ≤ 191 → WellFormed rest → WellFormed (237 :: b1 :: b2 :: rest)
  | fourF0 (b1 b2 b3 : Byte) (rest : List Byte) : 144 ≤ b1.val → b1.val ≤ 191 →
      128 ≤ b2.val → b2.val ≤ 191 → 128 ≤ b3.val → b3.val ≤ 191 → WellFormed rest →
      WellFormed (240 :: b1 :: b2 :: b3 :: rest)
  | four (b0 b1 b2 b3 : Byte) (rest : List Byte) : 241 ≤ b0.val → b0.val ≤ 243 →
      128 ≤ b1.val → b1.val ≤ 191 →
      128 ≤ b2.val → b2.val ≤ 191 → 128 ≤ b3.val → b3.val ≤ 191 → WellFormed rest →
      WellFormed (b0 :: b1 :: b2 :: b3 :: rest)
  | fourF4 (b1 b2 b3 : Byte) (rest : List Byte) : 128 ≤ b1.val → b1.val ≤ 143 →
      128 ≤ b2.val → b2.val ≤ 191 → 128 ≤ b3.val → b3.val ≤ 191 → WellFormed rest →
      WellFormed (244 :: b1 :: b2 :: b3 :: rest)

/-- A host in which `Symbol.toPrimitive` of every object returns the object itself; the
inherited `valueOf` returns the object as well. -/
def selfPrimitiveHost : Host :=
  hostWith (fun id =>
    { plainObject id none (fun _ => none) with toPrimitive := some (some (.returns (.obj id))) })

/-- A host in which `valueOf` of object `id` returns the distinct object `id + 1`. -/
def freshValueOfHost : Host :=
  hostWith (fun id =>
    { plainObject id none (fun _ => none) with valueOf := some (.returns (.obj (id + 1))) })

/-- A host whose objects are ordinary objects with the property `length` equal to -1. -/
def negativeLengthHost : Host :=
  hostWith (fun id => plainObject id (some (.int (-1))) (fun _ => none))

/-- A host in which every object is a byte-array view exporting the given bytes. -/
def viewHost (bytes : Nat → List Byte) : Host :=
  hostWith (fun id =>
    { plainObject id none (fun _ => none) with
      exportType := .bytes, exportBytes := bytes id, isUint8Array := true })

/-- A host in which the conversion of every object to a string throws, as for the object
`{ toString() { throw 1 } }`. -/
def throwingStringHost : Host :=
  hostWith (fun id => { plainObject id none (fun _ => none) with string := .throws })

/-- A host in which every object is the Number wrapper object of 5: it exports as an integer,
and its `valueOf` returns the number 5. -/
def numberObjectHost : Host :=
  hostWith (fun id =>
    { plainObject id none (fun _ => none) with
      exportType := .int, string := .returns (ascii "5"), toInteger := .returns 5,
      toNumber := .returns (.int 5), valueOf := some (.returns (.int 5)) })

/-- A host whose objects are ordinary objects with the property `length` equal to `2^62`. -/
def hugeLengthHost : Host :=
  hostWith (fun id => plainObject id (some (.int 4611686018427387904)) (fun _ => none))

/-- A host in which object 0 is a byte-array view of the bytes `abc` and the conversion of
every other object to a string throws. -/
def viewAndThrowingHost : Host :=
  hostWith (fun id =>
    if id = 0 then (viewHost (fun _ => ascii "abc")).objects 0
    else throwingStringHost.objects id)

/-! # Theorems -/

/-! ## Store lemmas -/

theorem overwrite_overwrite (A : List Byte) (pos : Nat) (v : Byte) (bs : List Byte)
    (hp : pos < A.length) :
    (A.take pos ++ [v] ++ A.drop (pos + 1)).take (pos + 1) ++ bs
        ++ (A.take pos ++ [v] ++ A.drop (pos + 1)).drop (pos + 1 + bs.length)
      = A.take pos ++ (v :: bs) ++ A.drop (pos + (bs.length + 1)) := by
  have hl : (A.take pos ++ [v]).length = pos + 1 := by
    simp [List.length_take]; omega
  have e1 : (A.take pos ++ [v] ++ A.drop (pos + 1)).take (pos + 1) = A.take pos ++ [v] := by
    rw [List.take_append_of_le_length (by omega), List.take_of_length_le (by omega)]
  have e2 : (A.take pos ++ [v] ++ A.drop (pos + 1)).drop (pos + 1 + bs.length)
      = A.drop (pos + (bs.length + 1)) := by
    have : pos + 1 + bs.length = (A.take pos ++ [v]).length + bs.length := by omega
    rw [this, List.drop_append, List.drop_drop]
    congr 1; omega
  rw [e1, e2]; simp

theorem Heap.length_write (h : Heap) (k pos : Nat) (bs : List Byte) :
    (h.write k pos bs).length = h.length := by
  simp [Heap.write]

theorem Heap.array_write_same (h : Heap) (k pos : Nat) (bs : List Byte) (hk : k < h.length) :
    (h.write k pos bs).array k
      = (h.array k).take pos ++ bs ++ (h.array k).drop (pos + bs.length) := by
  simp [Heap.write, Heap.array, List.getD_eq_getElem?_getD, List.getElem?_set, hk]

theorem Heap.array_write_other (h : Heap) (k j pos : Nat) (bs : List Byte) (hj : j ≠ k) :
    (h.write k pos bs).array j = h.array j := by
  simp [Heap.write, Heap.array, List.getD_eq_getElem?_getD, List.getElem?_set, hj.symm]

theorem Heap.length_array_write (h : Heap) (k pos : Nat) (bs : List Byte) (hk : k < h.length)
    (hp : pos + bs.length ≤ (h.array k).length) :
    ((h.write k pos bs).array k).length = (h.array k).length := by
  rw [Heap.array_write_same h k pos bs hk]
  simp [List.length_take, List.length_drop]; omega

theorem Heap.write_nil (h : Heap) (k pos : Nat) : h.write k pos [] = h := by
  unfold Heap.write
  simp only [List.append_nil, List.length_nil, Nat.add_zero, List.take_append_drop]
  apply List.ext_getElem?
  intro j
  simp only [List.getElem?_set, Heap.array, List.getD_eq_getElem?_getD]
  by_cases hjk : k = j
  · subst hjk
    by_cases hk : k < h.length
    · simp [hk]
    · simp [hk]; omega
  · simp [hjk]

theorem Heap.write_write (h : Heap) (k pos : Nat) (v : Byte) (bs : List Byte)
    (hk : k < h.length) (hp : pos < (h.array k).length) :
    (h.write k pos [v]).write k (pos + 1) bs = h.write k pos (v :: bs) := by
  have h1 := Heap.array_write_same h k pos [v] hk
  have h2 := overwrite_overwrite (h.array k) pos v bs hp
  unfold Heap.write at *
  rw [h1]
  simp only [List.set_set, List.length_cons, List.length_nil, Nat.zero_add] at *
  rw [h2]

theorem hexDecodeFrom_eq (d : Slice) : ∀ (src : List Byte) (h : Heap) (i : Nat),
    d.arr < h.length → d.off + d.len ≤ (h.array d.arr).length →
    i + src.length / 2 ≤ d.len →
    hexDecodeFrom h d src i
      = .ok (h.write d.arr (d.off + i) (hexPairs src), i + (hexPairs src).length, hexErr src)
  | [], h, i, _, _, _ => by simp [hexDecodeFrom, hexPairs, hexErr, Heap.write_nil]
  | [_], h, i, _, _, _ => by simp [hexDecodeFrom, hexPairs, hexErr, Heap.write_nil]
  | p :: q :: rest, h, i, hk, hlen, hi => by
    have hi2 : i + 1 + rest.length / 2 ≤ d.len := by
      simp only [List.length_cons] at hi; omega
    unfold hexDecodeFrom hexPairs hexErr
    cases hp : fromHexChar p with
    | none => simp [Heap.write_nil]
    | some a =>
      cases hq : fromHexChar q with
      | none => simp [Heap.write_nil]
      | some b =>
        have hlt : i < d.len := by omega
        simp only [Slice.store, hlt, if_true]
        have hk1 : d.arr < (h.write d.arr (d.off + i) [byteOf (a * 16 + b)]).length := by
          rw [Heap.length_write]; exact hk
        have hlen1 : d.off + d.len
            ≤ ((h.write d.arr (d.off + i) [byteOf (a * 16 + b)]).array d.arr).length := by
          rw [Heap.length_array_write h _ _ _ hk (by simp; omega)]; exact hlen
        rw [hexDecodeFrom_eq d rest _ (i + 1) hk1 hlen1 hi2]
        rw [show d.off + (i + 1) = d.off + i + 1 by omega,
          Heap.write_write h _ _ _ _ hk (by omega)]
        simp only [List.length_cons]
        congr 3; omega

theorem hexPairs_length_le : ∀ s : List Byte, (hexPairs s).length ≤ s.length / 2
  | [] => by simp [hexPairs]
  | [_] => by simp [hexPairs]
  | p :: q :: rest => by
    have ih := hexPairs_length_le rest
    unfold hexPairs
    cases fromHexChar p <;> cases fromHexChar q <;> simp
    omega

theorem hexPairs_length_of_noErr : ∀ s : List Byte, hexErr s = false →
    (hexPairs s).length = s.length / 2
  | [], _ => by simp [hexPairs]
  | [_], h => by simp [hexErr] at h
  | p :: q :: rest, h => by
    unfold hexErr at h
    unfold hexPairs
    cases hp : fromHexChar p <;> cases hq : fromHexChar q <;> simp [hp, hq] at h ⊢
    have ih := hexPairs_length_of_noErr rest h
    omega

theorem make_array (h : Heap) (n : Nat) : (make h n).1.array h.length = List.replicate n 0 := by
  simp [make, Heap.array, List.getD_eq_getElem?_getD]

theorem hexCodec_DecodeAppend_nil (h : Heap) (s : GoString) :
    resultBytes (hexCodec.DecodeAppend h s nilSlice) = .ok (hexPairs s) := by
  by_cases hl : s.length / 2 = 0
  · have hs : s = [] ∨ ∃ c, s = [c] := by
      match s, hl with
      | [], _ => exact Or.inl rfl
      | [c], _ => exact Or.inr ⟨c, rfl⟩
      | _ :: _ :: r, hl => simp at hl; omega
    rcases hs with rfl | ⟨c, rfl⟩ <;>
      simp [hexCodec.DecodeAppend, hexDecodedLen, expandSlice, nilSlice, Slice.slice,
        Slice.sliceTo, hexDecode, hexDecodeFrom, resultBytes, Except.map, Slice.bytes, hexPairs,
        bind, Except.bind, pure, Except.pure]
  · have hpos : 0 < s.length / 2 := Nat.pos_of_ne_zero hl
    have hd := hexDecodeFrom_eq ⟨h.length, 0, s.length / 2, s.length / 2⟩ s
      (h ++ [List.replicate (s.length / 2) 0]) 0 (by simp)
      (by simp [Heap.array, List.getD_eq_getElem?_getD]) (by simp)
    have hle := hexPairs_length_le s
    simp only [hexCodec.DecodeAppend, hexDecodedLen, expandSlice, nilSlice, Nat.sub_self, hpos,
      if_true, make, copySlice, copyBytes, Slice.bytes, List.take_zero, List.length_nil,
      Nat.min_zero, Nat.zero_min, Heap.write_nil, Slice.sliceFrom, Slice.slice, Nat.zero_add,
      Nat.zero_le, true_and, Nat.le_refl, Nat.sub_zero, Nat.add_zero, hexDecode,
      bind, Except.bind, pure, Except.pure] at hd ⊢
    rw [hd]
    simp only [resultBytes, Except.map]
    cases he : hexErr s
    · have hn := hexPairs_length_of_noErr s he
      simp [Slice.bytes, Heap.array_write_same, Heap.array, List.getD_eq_getElem?_getD,
        Heap.write, ← hn]
    · simp [Slice.sliceTo, Slice.slice, hle, Slice.bytes, Heap.write, Heap.array,
        List.getD_eq_getElem?_getD]

theorem fromHexChar_hextable : ∀ n : Fin 16, fromHexChar (hextable.getD n.val 0) = some n.val := by
  decide

theorem hextable_lower : ∀ n : Fin 16,
    (48 ≤ (hextable.getD n.val 0).val ∧ (hextable.getD n.val 0).val ≤ 57)
      ∨ (97 ≤ (hextable.getD n.val 0).val ∧ (hextable.getD n.val 0).val ≤ 102) := by
  decide

set_option maxRecDepth 100000 in
theorem fromHexChar_spec : ∀ c : Byte,
    fromHexChar c = if isHexDigit c then some (hexDigitValue c) else none := by
  decide

theorem byteOf_nibbles (v : Byte) : byteOf (v.val / 16 * 16 + v.val % 16) = v := by
  apply Fin.ext
  simp only [byteOf]
  have := v.isLt
  omega

theorem hexPairs_encode : ∀ B : List Byte, hexPairs (hexEncodeToString B) = B
  | [] => rfl
  | v :: rest => by
    have h1 := fromHexChar_hextable ⟨v.val / 16, by have := v.isLt; omega⟩
    have h2 := fromHexChar_hextable ⟨v.val % 16, by omega⟩
    simp only at h1 h2
    simp only [hexEncodeToString, hexPairs, h1, h2, byteOf_nibbles, hexPairs_encode rest]

theorem length_hexEncodeToString : ∀ B : List Byte, (hexEncodeToString B).length = 2 * B.length
  | [] => rfl
  | v :: rest => by
    simp only [hexEncodeToString, List.length_cons, length_hexEncodeToString rest]; omega

theorem hexEncodeToString_lower : ∀ (B : List Byte) (c : Byte), c ∈ hexEncodeToString B →
    (48 ≤ c.val ∧ c.val ≤ 57) ∨ (97 ≤ c.val ∧ c.val ≤ 102)
  | [], c, hc => by simp [hexEncodeToString] at hc
  | v :: rest, c, hc => by
    simp only [hexEncodeToString, List.mem_cons] at hc
    rcases hc with rfl | rfl | hc
    · exact hextable_lower ⟨v.val / 16, by have := v.isLt; omega⟩
    · exact hextable_lower ⟨v.val % 16, by omega⟩
    · exact hexEncodeToString_lower rest c hc

theorem take_all_iff (p : Byte → Bool) : ∀ (s : List Byte) (n : Nat),
    (n ≤ s.length ∧ ∀ c ∈ s.take n, p c = true) ↔ n ≤ (s.takeWhile p).length
  | [], n => by simp
  | a :: s, 0 => by simp
  | a :: s, n + 1 => by
    have ih := take_all_iff p s n
    by_cases ha : p a = true
    · simp only [List.length_cons, List.take_succ_cons, List.mem_cons, forall_eq_or_imp, ha,
        true_and, List.takeWhile_cons_of_pos, Nat.add_le_add_iff_right] at ih ⊢
      exact ih
    · simp [List.takeWhile_cons_of_neg ha, ha]

theorem hexPairs_eq_pairBytes : ∀ s : List Byte,
    hexPairs s = pairBytes (s.take (2 * hexValidPairs s))
  | [] => by simp [hexPairs, pairBytes]
  | [c] => by
    have h0 : hexValidPairs [c] = 0 := by
      unfold hexValidPairs
      cases hc : isHexDigit c <;> simp [List.takeWhile, hc]
    simp [hexPairs, pairBytes, h0]
  | p :: q :: rest => by
    have ih := hexPairs_eq_pairBytes rest
    unfold hexPairs
    rw [fromHexChar_spec p, fromHexChar_spec q]
    by_cases hp : isHexDigit p = true
    · by_cases hq : isHexDigit q = true
      · have hk : hexValidPairs (p :: q :: rest) = hexValidPairs rest + 1 := by
          simp only [hexValidPairs, hp, hq, List.takeWhile_cons_of_pos, List.length_cons]
          omega
        rw [hk, show 2 * (hexValidPairs rest + 1) = 2 * hexValidPairs rest + 1 + 1 by omega,
          List.take_succ_cons, List.take_succ_cons, pairBytes, ← ih]
        simp only [hp, hq, if_true, Nat.mul_comm]
      · have hk : hexValidPairs (p :: q :: rest) = 0 := by
          simp [hexValidPairs, hp, hq]
        simp [hp, hq, hk, pairBytes]
    · have hk : hexValidPairs (p :: q :: rest) = 0 := by
        simp [hexValidPairs, hp]
      simp [hp, hk, pairBytes]

theorem length_pairBytes : ∀ s : List Byte, (pairBytes s).length = s.length / 2
  | [] => by simp [pairBytes]
  | [_] => by simp [pairBytes]
  | p :: q :: rest => by
    simp only [pairBytes, List.length_cons, length_pairBytes rest]; omega

/-- C1: hex round trip.  For every byte sequence `B`, decoding `Encode(B)` onto the nil slice
succeeds and yields `B`; `Encode(B)` has `2 * len(B)` characters, each a digit `0-9` or a
lower-case letter `a-f`. -/
theorem C1_hex_round_trip (h : Heap) (B : List Byte) :
    resultBytes (hexCodec.DecodeAppend h (hexCodec.Encode B) nilSlice) = .ok B
      ∧ (hexCodec.Encode B).length = 2 * B.length
      ∧ ∀ c ∈ hexCodec.Encode B, (48 ≤ c.val ∧ c.val ≤ 57) ∨ (97 ≤ c.val ∧ c.val ≤ 102) := by
  refine ⟨?_, length_hexEncodeToString B, hexEncodeToString_lower B⟩
  rw [hexCodec_DecodeAppend_nil, hexCodec.Encode, hexPairs_encode]

/-- C3: hex leniency.  For every string `s`, decoding onto the nil slice never fails and yields
the bytes denoted by the first `k` two-character pairs of `s`, exactly `k` of them, where `k`
is the largest number with `2k ≤ len(s)` whose first `2k` characters are all hex digits. -/
theorem C3_hex_lenient (h : Heap) (s : GoString) :
    resultBytes (hexCodec.DecodeAppend h s nilSlice)
        = .ok (pairBytes (s.take (2 * hexValidPairs s)))
      ∧ (pairBytes (s.take (2 * hexValidPairs s))).length = hexValidPairs s
      ∧ 2 * hexValidPairs s ≤ s.length
      ∧ (∀ c ∈ s.take (2 * hexValidPairs s), isHexDigit c = true)
      ∧ ∀ k, 2 * k ≤ s.length → (∀ c ∈ s.take (2 * k), isHexDigit c = true) →
          k ≤ hexValidPairs s := by
  have hk : 2 * hexValidPairs s ≤ (s.takeWhile isHexDigit).length := by
    unfold hexValidPairs; omega
  have hk2 := (take_all_iff isHexDigit s _).2 hk
  refine ⟨?_, ?_, hk2.1, hk2.2, ?_⟩
  · rw [hexCodec_DecodeAppend_nil, hexPairs_eq_pairBytes]
  · rw [length_pairBytes, List.length_take, Nat.min_eq_left hk2.1]; omega
  · intro k h1 h2
    have := (take_all_iff isHexDigit s (2 * k)).1 ⟨h1, h2⟩
    unfold hexValidPairs; omega

/-! ## base64 -/

theorem base64DecodeMap_encodeStd :
    ∀ n : Fin 64, base64DecodeMap (encodeStd.getD n.val 0) = some n.val := by
  decide

theorem base64DecodeMap_encodeURL :
    ∀ n : Fin 64, base64DecodeMap (encodeURL.getD n.val 0) = some n.val := by
  decide

theorem length_quantumBytes (acc : List Nat) (h : acc.length ≤ 4) :
    (quantumBytes acc).length = acc.length * 6 / 8 := by
  match acc, h with
  | [], _ => simp [quantumBytes]
  | [_], _ => simp [quantumBytes]
  | [_, _], _ => simp [quantumBytes]
  | [_, _, _], _ => simp [quantumBytes]
  | [_, _, _, _], _ => simp [quantumBytes]
  | _ :: _ :: _ :: _ :: _ :: _, h => simp at h

theorem length_base64DecodeBytes_le : ∀ (src : List Byte) (acc : List Nat), acc.length ≤ 3 →
    (base64DecodeBytes src acc).length ≤ (acc.length + src.length) * 6 / 8
  | [], acc, h => by
    simp only [base64DecodeBytes, List.length_nil, Nat.add_zero]
    rw [length_quantumBytes acc (by omega)]
  | c :: rest, acc, h => by
    unfold base64DecodeBytes
    cases hc : base64DecodeMap c with
    | some v =>
      simp only
      by_cases h3 : acc.length = 3
      · have ih := length_base64DecodeBytes_le rest [] (by simp)
        have hq := length_quantumBytes (acc ++ [v]) (by simp; omega)
        simp only [List.length_append, List.length_cons, List.length_nil] at hq ih ⊢
        simp only [h3, if_true, List.length_append, hq]
        omega
      · have ih := length_base64DecodeBytes_le rest (acc ++ [v]) (by simp; omega)
        simp only [List.length_append, List.length_cons, List.length_nil] at ih ⊢
        simp only [h3, if_false]
        omega
    | none =>
      simp only
      by_cases hn : c.val = 10 ∨ c.val = 13
      · have ih := length_base64DecodeBytes_le rest acc h
        simp only [hn, if_true, List.length_cons]
        omega
      · simp only [hn, if_false, List.length_cons]
        rw [length_quantumBytes acc (by omega)]
        omega

theorem base64_triple (a b c : Byte) :
    quantumBytes [(a.val * 65536 + b.val * 256 + c.val) / 262144 % 64,
        (a.val * 65536 + b.val * 256 + c.val) / 4096 % 64,
        (a.val * 65536 + b.val * 256 + c.val) / 64 % 64,
        (a.val * 65536 + b.val * 256 + c.val) % 64] = [a, b, c] := by
  have ha := a.isLt
  have hb := b.isLt
  have hc := c.isLt
  simp only [quantumBytes, byteOf, List.cons.injEq, and_true]
  refine ⟨Fin.ext ?_, Fin.ext ?_, Fin.ext ?_⟩ <;> simp only <;> omega

theorem base64_double (a b : Byte) :
    quantumBytes [(a.val * 65536 + b.val * 256) / 262144 % 64,
        (a.val * 65536 + b.val * 256) / 4096 % 64,
        (a.val * 65536 + b.val * 256) / 64 % 64] = [a, b] := by
  have ha := a.isLt
  have hb := b.isLt
  simp only [quantumBytes, byteOf, List.cons.injEq, and_true]
  refine ⟨Fin.ext ?_, Fin.ext ?_⟩ <;> simp only <;> omega

theorem base64_single (a : Byte) :
    quantumBytes [(a.val * 65536) / 262144 % 64, (a.val * 65536) / 4096 % 64] = [a] := by
  have ha := a.isLt
  simp only [quantumBytes, byteOf, List.cons.injEq, and_true]
  refine Fin.ext ?_
  simp only
  omega

theorem base64DecodeBytes_encode (alph : List Byte) (pad : Option Byte)
    (halph : ∀ n : Fin 64, base64DecodeMap (alph.getD n.val 0) = some n.val)
    (hpad : ∀ p, pad = some p → base64DecodeMap p = none ∧ ¬ (p.val = 10 ∨ p.val = 13)) :
    ∀ B : List Byte, base64DecodeBytes (base64EncodeToString alph pad B) [] = B
  | [] => by simp [base64EncodeToString, base64DecodeBytes, quantumBytes]
  | [a] => by
    have e (n : Nat) := halph ⟨n % 64, Nat.mod_lt _ (by decide)⟩
    simp only at e
    cases pad with
    | none =>
      simp only [base64EncodeToString, base64DecodeBytes, e, Option.toList, List.append_nil,
        List.cons_append, List.nil_append, List.length_nil, List.length_cons]
      simpa using base64_single a
    | some p =>
      obtain ⟨hp1, hp2⟩ := hpad p rfl
      simp only [base64EncodeToString, base64DecodeBytes, e, Option.toList, hp1, hp2,
        List.cons_append, List.nil_append, List.length_nil, List.length_cons, if_false]
      simpa using base64_single a
  | [a, b] => by
    have e (n : Nat) := halph ⟨n % 64, Nat.mod_lt _ (by decide)⟩
    simp only at e
    cases pad with
    | none =>
      simp only [base64EncodeToString, base64DecodeBytes, e, Option.toList, List.append_nil,
        List.cons_append, List.nil_append, List.length_nil, List.length_cons]
      simpa using base64_double a b
    | some p =>
      obtain ⟨hp1, hp2⟩ := hpad p rfl
      simp only [base64EncodeToString, base64DecodeBytes, e, Option.toList, hp1, hp2,
        List.cons_append, List.nil_append, List.length_nil, List.length_cons, if_false]
      simpa using base64_double a b
  | a :: b :: c :: rest => by
    have e (n : Nat) := halph ⟨n % 64, Nat.mod_lt _ (by decide)⟩
    simp only at e
    have ih := base64DecodeBytes_encode alph pad halph hpad rest
    simp only [base64EncodeToString, base64DecodeBytes, e, List.cons_append, List.nil_append,
      List.length_nil, List.length_cons, ih]
    have ht := base64_triple a b c
    simp only [Nat.reduceAdd, if_true] at ht ⊢
    rw [ht]; rfl

theorem Base64DecodeAppend_nil (h : Heap) (s : GoString) :
    resultBytes (Base64DecodeAppend h nilSlice s) = .ok (base64DecodeBytes s []) := by
  have hle := length_base64DecodeBytes_le s [] (by simp)
  simp only [List.length_nil, Nat.zero_add] at hle
  by_cases hl : s.length * 6 / 8 = 0
  · have hout : base64DecodeBytes s [] = [] := by
      apply List.eq_nil_of_length_eq_zero; omega
    simp [Base64DecodeAppend, rawDecodedLen, hl, expandSlice, nilSlice, Slice.slice,
      Slice.sliceTo, DecodeBase64, hout, copyBytes, Heap.write_nil, resultBytes, Except.map,
      Slice.bytes, bind, Except.bind, pure, Except.pure]
  · have hpos : 0 < s.length * 6 / 8 := Nat.pos_of_ne_zero hl
    simp [Base64DecodeAppend, rawDecodedLen, hpos, expandSlice, nilSlice, Slice.slice,
      Slice.sliceTo, Slice.sliceFrom, DecodeBase64, copyBytes, copySlice, make, Heap.write_nil,
      resultBytes, Except.map, hle, Nat.min_eq_right hle,
      Slice.bytes, bind, Except.bind, pure, Except.pure, Heap.write, Heap.array,
      List.getD_eq_getElem?_getD]

/-- C2: base64 round trip.  For every byte sequence `B`, the shared decoder applied to the
padded standard encoding of `B`, and applied to the unpadded URL-safe encoding of `B`, succeeds
and yields `B`. -/
theorem C2_base64_round_trip (h : Heap) (B : List Byte) :
    resultBytes (StringCodec.DecodeAppend .base64 h (StringCodec.Encode .base64 B) nilSlice)
        = .ok B
      ∧ resultBytes
          (StringCodec.DecodeAppend .base64Url h (StringCodec.Encode .base64Url B) nilSlice)
        = .ok B := by
  constructor
  · simp only [StringCodec.DecodeAppend, StringCodec.Encode, base64Codec.DecodeAppend,
      base64Codec.Encode, Base64DecodeAppend_nil]
    rw [base64DecodeBytes_encode encodeStd (some stdPadding) base64DecodeMap_encodeStd
      (by intro p hp; cases hp; decide)]
  · simp only [StringCodec.DecodeAppend, StringCodec.Encode, base64Codec.DecodeAppend,
      base64UrlCodec.Encode, Base64DecodeAppend_nil]
    rw [base64DecodeBytes_encode encodeURL none base64DecodeMap_encodeURL
      (by intro p hp; cases hp)]

/-! ## Allocation with a string fill -/

theorem makeslice_of_le (h : Heap) (n : Nat) (hn : n ≤ maxAlloc) :
    makeslice h (n : Int) = .ok (h ++ [List.replicate n 0], ⟨h.length, 0, n, n⟩) := by
  simp [makeslice, make, hn]

theorem makeslice_of_gt (h : Heap) (n : Int) (hn : (maxAlloc : Int) < n) :
    makeslice h n = .error .runtimePanic := by
  simp [makeslice, hn]

theorem makeslice_error (h : Heap) (n : Int) (e : Failure) (he : makeslice h n = .error e) :
    e = .runtimePanic := by
  unfold makeslice at he
  split at he
  · cases he; rfl
  · cases he

theorem fillLoop_zero (buf : Slice) (hpos : 0 < buf.len) (hcap : buf.len ≤ buf.cap) :
    ∀ (fuel : Nat) (h : Heap), fillLoop buf fuel h 0 = none
  | 0, _ => rfl
  | fuel + 1, h => by
    have ih := fillLoop_zero buf hpos hcap fuel h
    simp only [fillLoop, hpos, if_true, Slice.sliceFrom, Slice.sliceTo, Slice.slice,
      Nat.zero_le, true_and, hcap, Nat.le_refl, and_self, copySlice, copyBytes, Slice.bytes,
      Nat.sub_self, List.take_zero, List.length_nil, Nat.min_zero, Heap.write_nil, Nat.add_zero]
    exact ih

/-- C4 (failing input): `alloc(3, "6162zzzzzz", "hex")`.  The fill text decodes to the two
bytes `61 62`, yet the buffer returned holds three zero bytes: the decoder reserved five bytes,
more than the buffer has, wrote into fresh storage, and the fill loop copied from the untouched
buffer.  The same happens for `alloc(2, "YQ==", "base64")`, whose text decodes to `61`. -/
theorem C4_fill_lost_decoding :
    resultBytes (StringCodec.DecodeAppend .hex [] (ascii "6162zzzzzz") nilSlice) = .ok [97, 98]
      ∧ alloc 2 plainHost [.int 3, .str (ascii "6162zzzzzz"), .str (ascii "hex")]
          = some (.ok [0, 0, 0])
      ∧ resultBytes (StringCodec.DecodeAppend .base64 [] (ascii "YQ==") nilSlice) = .ok [97]
      ∧ alloc 2 plainHost [.int 2, .str (ascii "YQ=="), .str (ascii "base64")]
          = some (.ok [0, 0]) := by
  decide

/-- C5 (failing input): `alloc(1, "")`.  The empty fill decodes to no bytes, the fill loop
starts at index 0 and `copy(buf[0:], buf[:0])` copies nothing, so the index never advances:
whatever the number of loop tests allowed, the call has not returned. -/
theorem C5_alloc_empty_fill_diverges (fuel : Nat) (host : Host) :
    alloc fuel host [.int 1, .str []] = none := by
  have hl := fillLoop_zero ⟨0, 0, 1, 1⟩ (by decide) (by decide) fuel
  have hm := makeslice_of_le [] 1 (by decide)
  simp only [Nat.cast_one] at hm
  simp only [alloc, Argument, List.getD, List.get?, Option.getD, isNumber, Value.ExportType,
    Value.ToInteger, if_true, isString, IsUndefined, hm, fill, getStringCodec,
    Slice.sliceTo, Slice.slice, StringCodec.DecodeAppend, utf8Codec, _utf8Codec.DecodeAppend,
    replaceIllFormed, expandSlice, copyBytes, Heap.write_nil, Value.String, hl,
    bind, Except.bind, pure, Except.pure]
  simp [hl]

/-! ## Decoding onto the nil slice, and the registry -/

theorem utf8Codec_DecodeAppend_nil (h : Heap) (s : GoString) :
    resultBytes (_utf8Codec.DecodeAppend h s nilSlice) = .ok (replaceIllFormed s 0) := by
  by_cases hl : (replaceIllFormed s 0).length = 0
  · have hr : replaceIllFormed s 0 = [] := List.eq_nil_of_length_eq_zero hl
    simp [_utf8Codec.DecodeAppend, hr, expandSlice, nilSlice, Slice.slice, Slice.sliceTo,
      copyBytes, Heap.write_nil, resultBytes, Except.map, Slice.bytes, bind, Except.bind, pure,
      Except.pure]
  · have hpos : 0 < (replaceIllFormed s 0).length := Nat.pos_of_ne_zero hl
    simp [_utf8Codec.DecodeAppend, hpos, expandSlice, nilSlice, Slice.slice, Slice.sliceFrom,
      copyBytes, copySlice, make, Heap.write_nil, resultBytes, Except.map, Slice.bytes, bind,
      Except.bind, pure, Except.pure, Heap.write, Heap.array, List.getD_eq_getElem?_getD]

theorem DecodeAppend_nil (c : StringCodec) (h : Heap) (s : GoString) :
    resultBytes (c.DecodeAppend h s nilSlice) = .ok (decodedBytes c s) := by
  cases c
  · exact hexCodec_DecodeAppend_nil h s
  · exact utf8Codec_DecodeAppend_nil h s
  · exact Base64DecodeAppend_nil h s
  · exact Base64DecodeAppend_nil h s

theorem fromString_eq (str enc : GoString) :
    fromString str enc = .ok (decodedBytes ((stringCodecs enc).getD utf8Codec) str) := by
  have h := DecodeAppend_nil ((stringCodecs enc).getD utf8Codec) [] str
  have hc : (match stringCodecs enc with
      | some c => c
      | none => utf8Codec) = (stringCodecs enc).getD utf8Codec := by
    cases stringCodecs enc <;> rfl
  simp only [fromString, hc]
  cases hd : ((stringCodecs enc).getD utf8Codec).DecodeAppend [] str nilSlice with
  | error e => simp [hd, resultBytes, Except.map] at h
  | ok p =>
    simp only [hd, resultBytes, Except.map, Except.ok.injEq] at h
    simp [fromBytes, h]

theorem stringCodecs_eq_some (name : GoString) (c : StringCodec) :
    stringCodecs name = some c ↔
      (name = ascii "hex" ∧ c = .hex) ∨ (name = ascii "utf8" ∧ c = .utf8)
        ∨ (name = ascii "utf-8" ∧ c = .utf8) ∨ (name = ascii "base64" ∧ c = .base64)
        ∨ (name = ascii "base64Url" ∧ c = .base64Url) := by
  by_cases h1 : name = ascii "hex"
  · subst h1; cases c <;> decide
  by_cases h2 : name = ascii "utf8"
  · subst h2; cases c <;> decide
  by_cases h3 : name = ascii "utf-8"
  · subst h3; cases c <;> decide
  by_cases h4 : name = ascii "base64"
  · subst h4; cases c <;> decide
  by_cases h5 : name = ascii "base64Url"
  · subst h5; cases c <;> decide
  simp [stringCodecs, h1, h2, h3, h4, h5]

theorem stringCodecs_eq_none (name : GoString) :
    stringCodecs name = none ↔ name ∉ registeredNames := by
  simp only [registeredNames, List.mem_cons, List.mem_singleton, List.not_mem_nil, or_false,
    not_or]
  constructor
  · intro h
    refine ⟨?_, ?_, ?_, ?_, ?_⟩ <;> (intro hn; subst hn; revert h; decide)
  · rintro ⟨h1, h2, h3, h4, h5⟩
    simp [stringCodecs, h1, h2, h3, h4, h5]

/-! ## Construction from a string; `toString` -/

theorem String_error (host : Host) (v : Value) (e : Failure)
    (he : v.String host = .error e) : e = .hostError := by
  cases v with
  | bool b => cases b <;> simp [Value.String] at he
  | obj o =>
    simp only [Value.String] at he
    cases ho : (host.objects o).string with
    | returns n => simp [ho, Outcome.run] at he
    | throws => simp only [ho, Outcome.run, Except.error.injEq] at he; exact he.symm
  | _ => simp [Value.String] at he

theorem getStringCodec_undefined (host : Host) : getStringCodec host .undefined = .ok .utf8 := by
  simp [getStringCodec, IsUndefined, utf8Codec]

theorem getStringCodec_of_name (host : Host) (enc : Value) (name : GoString)
    (hv : enc ≠ .undefined) (hn : enc.String host = .ok name) :
    getStringCodec host enc = match stringCodecs name with
      | some codec => .ok codec
      | none => .error .unknownEncoding := by
  simp [getStringCodec, IsUndefined, hv, hn]

theorem getStringCodec_of_throw (host : Host) (enc : Value) (e : Failure)
    (hv : enc ≠ .undefined) (hn : enc.String host = .error e) :
    getStringCodec host enc = .error e := by
  simp [getStringCodec, IsUndefined, hv, hn]

theorem from_string_step (host : Host) (fuel : Nat) (s : GoString) (enc : Value)
    (rest : List Value) :
    «from» host (fuel + 1) (.str s :: enc :: rest)
      = match enc.String host with
        | .ok name => some (.ok (decodedBytes ((stringCodecs name).getD utf8Codec) s))
        | .error e => some (.error e) := by
  have hs : Value.String host (.str s) = .ok s := rfl
  simp only [«from», _from, fromStep, Value.ExportType, hs]
  cases enc.String host <;> simp [fromString_eq]

/-- C6 (counterexample): `from("abc", "bogus")` names an encoding that is not registered, yet
the call returns a buffer, the utf8 bytes of `"abc"`. -/
theorem C6_unknown_encoding_defaults :
    stringCodecs (ascii "bogus") = none
      ∧ «from» plainHost 1 [.str (ascii "abc"), .str (ascii "bogus")]
          = some (.ok (ascii "abc")) := by
  decide

/-- C6 (amended): construction from a string never raises `UnknownEncoding`.  For every
string `s` and every second argument `enc` whose conversion to a string returns a text,
`from(s, enc)` returns the bytes `s` decodes to under the codec registered for that text, and
under utf8 when the text is not a registered name; when the conversion of `enc` raises, that
error is the outcome; with no second argument `from(s)` returns the utf8 bytes. -/
theorem C6_from_string_encoding (host : Host) (fuel : Nat) (s : GoString) (enc : Value)
    (rest : List Value) :
    (∀ name, enc.String host = .ok name →
        «from» host (fuel + 1) (.str s :: enc :: rest)
          = some (.ok (decodedBytes ((stringCodecs name).getD utf8Codec) s)))
      ∧ (∀ e, enc.String host = .error e →
          «from» host (fuel + 1) (.str s :: enc :: rest) = some (.error e))
      ∧ «from» host (fuel + 1) [.str s] = some (.ok (decodedBytes utf8Codec s))
      ∧ «from» host (fuel + 1) (.str s :: enc :: rest) ≠ some (.error .unknownEncoding) := by
  have hstep := from_string_step host fuel s enc rest
  refine ⟨?_, ?_, ?_, ?_⟩
  · intro name hn
    rw [hstep, hn]
  · intro e he
    rw [hstep, he]
  · simp only [«from», _from, fromStep, Value.ExportType, Value.String, fromString_eq]
    rfl
  · rw [hstep]
    cases hs : enc.String host with
    | ok name => simp
    | error e =>
      have := String_error host enc e hs
      subst this
      simp

/-- C6 (witness): `from("6162", "hex")` under the registered codec, and the unregistered name
`"bogus"` under utf8. -/
theorem C6_from_string_encoding_witness :
    «from» plainHost 1 [.str (ascii "6162"), .str (ascii "hex")] = some (.ok (ascii "ab"))
      ∧ «from» plainHost 1 [.str (ascii "ab"), .str (ascii "bogus")]
          = some (.ok (ascii "ab")) :=
  ⟨((C6_from_string_encoding plainHost 0 (ascii "6162") (.str (ascii "hex")) []).1
      (ascii "hex") rfl).trans (by decide),
    ((C6_from_string_encoding plainHost 0 (ascii "ab") (.str (ascii "bogus")) []).1
      (ascii "bogus") rfl).trans (by decide)⟩

/-- C7 (counterexample): `buf.toString({ toString() { throw 1 } })`.  The encoding is given and
is not a registered name, yet the failure of `getStringCodec`, and of `toString` on a buffer,
is the error thrown by the conversion of the argument, not `ERR_UNKNOWN_ENCODING`. -/
theorem C7_conversion_error_passes :
    getStringCodec throwingStringHost (.obj 0) = .error .hostError
      ∧ proto_toString viewAndThrowingHost (.obj 0) [.obj 1] = .error .hostError := by
  decide

/-- C7 (amended): encoding lookup for `toString`.  `getStringCodec` gives utf8 for undefined;
for any other value whose conversion to a string returns a text it gives the codec registered
under exactly that text (one of `hex`, `utf8`, `utf-8`, `base64`, `base64Url`; `HEX` and `UTF8`
are not registered) and fails, with `ERR_UNKNOWN_ENCODING` only, exactly when the text is not
registered; when the conversion raises, that error is the failure.  Hence `toString(enc)` on a
buffer raises if and only if `enc` is given and is not a registered name, and `toString()`
returns. -/
theorem C7_getStringCodec (host : Host) (this enc : Value) (args : List Value)
    (bb : List Byte) :
    getStringCodec host .undefined = .ok .utf8
      ∧ (∀ name, enc ≠ .undefined → enc.String host = .ok name →
          (∀ c, getStringCodec host enc = .ok c ↔
            (name = ascii "hex" ∧ c = .hex)
              ∨ (name = ascii "utf8" ∧ c = .utf8)
              ∨ (name = ascii "utf-8" ∧ c = .utf8)
              ∨ (name = ascii "base64" ∧ c = .base64)
              ∨ (name = ascii "base64Url" ∧ c = .base64Url))
          ∧ (getStringCodec host enc = .error .unknownEncoding ↔ name ∉ registeredNames)
          ∧ (∀ e, getStringCodec host enc = .error e → e = .unknownEncoding))
      ∧ (∀ e, enc ≠ .undefined → enc.String host = .error e →
          getStringCodec host enc = .error e)
      ∧ stringCodecs (ascii "HEX") = none ∧ stringCodecs (ascii "UTF8") = none
      ∧ (Bytes host this = .ok bb →
          ((∃ e, proto_toString host this args = .error e)
            ↔ (Argument args 0 ≠ .undefined
                ∧ ∀ name, (Argument args 0).String host = .ok name → name ∉ registeredNames))
          ∧ proto_toString host this [] = .ok (StringCodec.Encode .utf8 bb))
      ∧ (∀ o, (host.objects o).exportType = .bytes →
          Bytes host (.obj o) = .ok (host.objects o).exportBytes) := by
  refine ⟨getStringCodec_undefined host, ?_, ?_, by decide, by decide, ?_, ?_⟩
  · intro name hv hn
    have key := getStringCodec_of_name host enc name hv hn
    refine ⟨?_, ?_, ?_⟩
    · intro c
      rw [key, ← stringCodecs_eq_some]
      cases stringCodecs name <;> simp
    · rw [key, ← stringCodecs_eq_none]
      cases stringCodecs name <;> simp
    · intro e he
      rw [key] at he
      cases hs : stringCodecs name with
      | some c => rw [hs] at he; cases he
      | none => rw [hs] at he; cases he; rfl
  · intro e hv he
    exact getStringCodec_of_throw host enc e hv he
  · intro hb
    constructor
    · simp only [proto_toString, hb]
      by_cases hv : Argument args 0 = .undefined
      · simp [hv, getStringCodec_undefined]
      · cases hs : (Argument args 0).String host with
        | error e => simp [getStringCodec_of_throw host _ e hv hs, hv]
        | ok name =>
          rw [getStringCodec_of_name host _ name hv hs]
          cases hc : stringCodecs name with
          | some c =>
            have : ¬ name ∉ registeredNames := by
              rw [← stringCodecs_eq_none, hc]; simp
            simp [hv, this]
          | none =>
            have : name ∉ registeredNames := (stringCodecs_eq_none name).1 hc
            simp [hv, this]
    · simp [proto_toString, hb, Argument, getStringCodec_undefined]
  · intro o ho
    simp [Bytes, ho]

/-- C7 (witness): the lookup instantiated at the explicit encoding `"HEX"`. -/
theorem C7_getStringCodec_witness :
    getStringCodec plainHost (.str (ascii "HEX")) = .error .unknownEncoding :=
  ((C7_getStringCodec plainHost .undefined (.str (ascii "HEX")) [] []).2.1 (ascii "HEX")
    (by decide) rfl).2.1.2 (by decide)

/-! ## Where failures come from; the numeric fill -/

theorem bind_error {α β : Type} (x : Except Failure α) (f : α → Except Failure β) (e : Failure)
    (h : (x >>= f) = .error e) : x = .error e ∨ ∃ a, x = .ok a ∧ f a = .error e := by
  cases x with
  | error e2 =>
    left
    simpa [bind, Except.bind] using h
  | ok a => exact Or.inr ⟨a, rfl, h⟩

theorem slice_error (s : Slice) (lo hi : Nat) (e : Failure) (h : s.slice lo hi = .error e) :
    e = .runtimePanic := by
  unfold Slice.slice at h
  split at h
  · cases h
  · cases h; rfl

theorem store_error (h : Heap) (s : Slice) (i : Nat) (v : Byte) (e : Failure)
    (he : s.store h i v = .error e) : e = .runtimePanic := by
  unfold Slice.store at he
  split at he
  · cases he
  · cases he; rfl

theorem expandSlice_error (h : Heap) (b : Slice) (l : Nat) (e : Failure)
    (he : expandSlice h b l = .error e) : e = .runtimePanic := by
  unfold expandSlice at he
  split at he
  · simp only [make, copySlice, copyBytes] at he
    rcases bind_error _ _ _ he with h1 | ⟨a, _, h2⟩
    · exact slice_error _ _ _ _ h1
    · cases h2
  · rcases bind_error _ _ _ he with h1 | ⟨a, _, h2⟩
    · exact slice_error _ _ _ _ h1
    · rcases bind_error _ _ _ h2 with h3 | ⟨a2, _, h4⟩
      · exact slice_error _ _ _ _ h3
      · cases h4

theorem hexDecodeFrom_error (d : Slice) : ∀ (src : List Byte) (h : Heap) (i : Nat) (e : Failure),
    hexDecodeFrom h d src i = .error e → e = .runtimePanic
  | [], h, i, e, he => by simp [hexDecodeFrom] at he
  | [_], h, i, e, he => by simp [hexDecodeFrom] at he
  | p :: q :: rest, h, i, e, he => by
    unfold hexDecodeFrom at he
    cases hp : fromHexChar p with
    | none => simp [hp] at he
    | some a =>
      cases hq : fromHexChar q with
      | none => simp [hp, hq] at he
      | some b =>
        simp only [hp, hq] at he
        cases hs : d.store h i (byteOf (a * 16 + b)) with
        | error e2 =>
          rw [hs] at he
          simp only [Except.error.injEq] at he
          rw [← he]; exact store_error _ _ _ _ _ hs
        | ok h1 =>
          rw [hs] at he
          exact hexDecodeFrom_error d rest h1 (i + 1) e he

theorem DecodeAppend_error (c : StringCodec) (h : Heap) (s : GoString) (b : Slice) (e : Failure)
    (he : c.DecodeAppend h s b = .error e) : e = .runtimePanic := by
  have hb64 : ∀ e, Base64DecodeAppend h b s = .error e → e = .runtimePanic := by
    intro e he
    unfold Base64DecodeAppend at he
    rcases bind_error _ _ _ he with h1 | ⟨⟨h1, d, res⟩, _, h2⟩
    · exact expandSlice_error _ _ _ _ h1
    · rcases bind_error _ _ _ h2 with h3 | ⟨⟨h2, n⟩, _, h4⟩
      · unfold DecodeBase64 at h3
        simp only at h3
        split at h3
        · cases h3
        · cases h3; rfl
      · rcases bind_error _ _ _ h4 with h5 | ⟨a, _, h6⟩
        · exact slice_error _ _ _ _ h5
        · cases h6
  cases c with
  | hex =>
    simp only [StringCodec.DecodeAppend, hexCodec.DecodeAppend] at he
    rcases bind_error _ _ _ he with h1 | ⟨⟨h1, d, res⟩, _, h2⟩
    · exact expandSlice_error _ _ _ _ h1
    · rcases bind_error _ _ _ h2 with h3 | ⟨⟨h2, n, err⟩, _, h4⟩
      · exact hexDecodeFrom_error _ _ _ _ _ h3
      · simp only at h4
        split at h4
        · rcases bind_error _ _ _ h4 with h5 | ⟨a, _, h6⟩
          · exact slice_error _ _ _ _ h5
          · cases h6
        · cases h4
  | utf8 =>
    simp only [StringCodec.DecodeAppend, _utf8Codec.DecodeAppend] at he
    rcases bind_error _ _ _ he with h1 | ⟨⟨h1, d, res⟩, _, h2⟩
    · exact expandSlice_error _ _ _ _ h1
    · cases h2
  | base64 => exact hb64 e he
  | base64Url => exact hb64 e he

theorem fillLoop_error (buf : Slice) : ∀ (fuel : Nat) (h : Heap) (i : Nat) (e : Failure),
    fillLoop buf fuel h i = some (.error e) → e = .runtimePanic
  | 0, h, i, e, he => by simp [fillLoop] at he
  | fuel + 1, h, i, e, he => by
    unfold fillLoop at he
    split at he
    · cases h1 : buf.sliceFrom i with
      | error e2 =>
        simp only [h1, Option.some.injEq, Except.error.injEq] at he
        rw [← he]; exact slice_error _ _ _ _ h1
      | ok d =>
        cases h2 : buf.sliceTo i with
        | error e2 =>
          simp only [h1, h2, Option.some.injEq, Except.error.injEq] at he
          rw [← he]; exact slice_error _ _ _ _ h2
        | ok s2 =>
          simp only [h1, h2] at he
          exact fillLoop_error buf fuel _ _ e he
    · simp at he

theorem getStringCodec_error (host : Host) (enc : Value) (e : Failure)
    (he : getStringCodec host enc = .error e) : e = .unknownEncoding ∨ e = .hostError := by
  by_cases hv : enc = .undefined
  · subst hv; rw [getStringCodec_undefined] at he; cases he
  · cases hs : enc.String host with
    | error e2 =>
      rw [getStringCodec_of_throw host enc e2 hv hs] at he
      cases he
      exact Or.inr (String_error host enc _ hs)
    | ok name =>
      rw [getStringCodec_of_name host enc name hv hs] at he
      cases hc : stringCodecs name with
      | some c => rw [hc] at he; cases he
      | none => rw [hc] at he; cases he; exact Or.inl rfl

theorem fill_error (fuel : Nat) (host : Host) (h : Heap) (buf : Slice) (s : GoString)
    (enc : Value) (e : Failure) (he : fill fuel host h buf s enc = some (.error e)) :
    e = .unknownEncoding ∨ e = .runtimePanic ∨ e = .hostError := by
  unfold fill at he
  split at he
  · rename_i e2 hg
    simp only [Option.some.injEq, Except.error.injEq] at he
    rw [← he]
    rcases getStringCodec_error host enc _ hg with h1 | h1
    · exact Or.inl h1
    · exact Or.inr (Or.inr h1)
  · split at he
    · rename_i e2 hs
      simp only [Option.some.injEq, Except.error.injEq] at he
      right; left; rw [← he]; exact slice_error _ _ _ _ hs
    · split at he
      · rename_i e2 hd
        simp only [Option.some.injEq, Except.error.injEq] at he
        right; left; rw [← he]; exact DecodeAppend_error _ _ _ _ _ hd
      · split at he
        · split at he
          · simp at he
          · rename_i e2 hs
            simp only [Option.some.injEq, Except.error.injEq] at he
            right; left; rw [← he]; exact slice_error _ _ _ _ hs
        · split at he
          · simp at he
          · rename_i e2 hs
            simp only [Option.some.injEq, Except.error.injEq] at he
            right; left; rw [← he]; exact fillLoop_error _ _ _ _ _ hs
          · simp at he

theorem ToInteger_error (host : Host) (v : Value) (e : Failure)
    (he : v.ToInteger host = .error e) : e = .hostError := by
  cases v <;> simp only [Value.ToInteger] at he <;> try cases he
  rename_i o
  cases ho : (host.objects o).toInteger with
  | returns n => simp [ho, Outcome.run] at he
  | throws => simp only [ho, Outcome.run, Except.error.injEq] at he; exact he.symm

theorem ToNumber_error (host : Host) (v : Value) (e : Failure)
    (he : v.ToNumber host = .error e) : e = .hostError := by
  cases v <;> simp only [Value.ToNumber] at he <;> try cases he
  rename_i o
  cases ho : (host.objects o).toNumber with
  | returns n => simp [ho, Outcome.run] at he
  | throws => simp only [ho, Outcome.run, Except.error.injEq] at he; exact he.symm

theorem write_single (P Z : List Byte) (z v : Byte) :
    Heap.write [P ++ z :: Z] 0 P.length [v] = [P ++ v :: Z] := by
  simp [Heap.write, Heap.array]

theorem storeAll_eq (n : Nat) (v : Byte) : ∀ (k i : Nat) (P Z : List Byte),
    P.length = i → Z.length = k → i + k = n →
    storeAll ⟨0, 0, n, n⟩ v k i [P ++ Z] = .ok [P ++ List.replicate k v]
  | 0, i, P, Z, _, hZ, _ => by
    have : Z = [] := List.eq_nil_of_length_eq_zero hZ
    simp [storeAll, this]
  | k + 1, i, P, Z, hP, hZ, hn => by
    match Z, hZ with
    | z :: Z1, hZ =>
      have hi : i < n := by omega
      have ih := storeAll_eq n v k (i + 1) (P ++ [v]) Z1 (by simp [hP]) (by simpa using hZ)
        (by omega)
      simp only [storeAll, Slice.store, hi, if_true, Nat.zero_add]
      subst hP
      rw [write_single]
      simp only [List.append_assoc, List.singleton_append] at ih
      rw [ih]
      simp [List.replicate_succ]

theorem bytes_whole (L : List Byte) : Slice.bytes [L] ⟨0, 0, L.length, L.length⟩ = L := by
  simp [Slice.bytes, Heap.array]

theorem byteOfInt_val (v : Int) : ((byteOfInt v).val : Int) = v % 256 := by
  simp only [byteOfInt, byteOf]
  omega

/-! ## The allocator: size check and numeric fill -/

theorem alloc_zero_store (n : Nat) :
    make [] n = ([List.replicate n 0], ⟨0, 0, n, n⟩) := by
  simp [make]

theorem bytes_replicate (n : Nat) (v : Byte) :
    Slice.bytes [List.replicate n v] ⟨0, 0, n, n⟩ = List.replicate n v := by
  have := bytes_whole (List.replicate n v)
  simpa using this

theorem storeAll_replicate (n : Nat) (v : Byte) :
    storeAll ⟨0, 0, n, n⟩ v n 0 [List.replicate n 0] = .ok [List.replicate n v] := by
  have := storeAll_eq n v n 0 [] (List.replicate n 0) rfl (by simp) (by simp)
  simpa using this

/-- The outcome of `alloc` once the size `n` is accepted and the fill is the number `num`
(neither a string nor undefined): the tail of the source function. -/
theorem alloc_numeric (fuel : Nat) (host : Host) (n : Nat) (fillv : Value) (rest : List Value)
    (hlim : n ≤ maxAlloc)
    (hu : fillv ≠ .undefined) (hs : isString host fillv = false) (num : Value)
    (hnum : fillv.ToNumber host = .ok num) (k : Int) (hk : num.ToInteger host = .ok k) :
    alloc fuel host (.int n :: fillv :: rest)
      = some (.ok (List.replicate n
          (if IsNaN num = false ∧ IsInfinity num = false then byteOfInt k else 0))) := by
  have hi : Value.ToInteger host (.int n) = .ok (n : Int) := rfl
  have hn : ¬ ((n : Int) < 0) := not_lt.2 (Int.ofNat_nonneg n)
  have hm := makeslice_of_le [] n hlim
  simp only [List.nil_append, List.length_nil] at hm
  simp only [alloc, Argument, List.getD_cons_zero, List.getD_cons_succ, isNumber,
    Value.ExportType, if_true, hi, hn, if_false, hm, IsUndefined,
    hu, hs, hnum, hk]
  by_cases h1 : IsNaN num = false ∧ IsInfinity num = false
  · by_cases h2 : byteOfInt k = 0
    · simp [h1, h2, fromBytes, bytes_replicate]
    · simp [h1, h2, fromBytes, bytes_replicate, storeAll_replicate]
  · have h3 : (!IsNaN num && !IsInfinity num) = false := by
      cases ha : IsNaN num <;> cases hb : IsInfinity num <;> simp_all
    simp [h1, h3, fromBytes, bytes_replicate]

theorem storeAll_error (buf : Slice) (v : Byte) : ∀ (k i : Nat) (h : Heap) (e : Failure),
    storeAll buf v k i h = .error e → e = .runtimePanic
  | 0, i, h, e, he => by simp [storeAll] at he
  | k + 1, i, h, e, he => by
    unfold storeAll at he
    cases hs : buf.store h i v with
    | error e2 =>
      simp only [hs, Except.error.injEq] at he
      rw [← he]; exact store_error _ _ _ _ _ hs
    | ok h1 =>
      simp only [hs] at he
      exact storeAll_error buf v k (i + 1) h1 e he

theorem alloc_no_fill (fuel : Nat) (host : Host) (n : Nat) (hlim : n ≤ maxAlloc) :
    alloc fuel host [.int n] = some (.ok (List.replicate n 0))
      ∧ alloc fuel host [.int n, .undefined] = some (.ok (List.replicate n 0)) := by
  have hi : Value.ToInteger host (.int n) = .ok (n : Int) := rfl
  have hn : ¬ ((n : Int) < 0) := not_lt.2 (Int.ofNat_nonneg n)
  have hm := makeslice_of_le [] n hlim
  simp only [List.nil_append, List.length_nil] at hm
  constructor <;>
    simp [alloc, Argument, isNumber, Value.ExportType, hi, hn, hm, IsUndefined,
      fromBytes, bytes_replicate]

/-- C9 (counterexample): `alloc(2^62)`.  The size is a non-negative integer, and the call does
not return a buffer: `make([]byte, size)` panics, the length being out of range. -/
theorem C9_alloc_huge_panics :
    alloc 0 plainHost [.int 4611686018427387904] = some (.error .runtimePanic) := by
  decide

/-- C9 (amended): allocator contents without a string fill.  For every size `n` within the
allocation limit, `alloc(n)` and `alloc(n, undefined)` return `n` zero bytes; `alloc(n, v)` for
an integer `v`, and for a float with the integer value `m * 2^e` in the `int64` range, returns
`n` bytes equal to the value mod 256 (255 gives 255, 256 gives 0, 300 gives 44, -1 gives 255);
a NaN or infinite fill leaves the `n` bytes zero. -/
theorem C9_alloc_contents (fuel : Nat) (host : Host) (n : Nat) (v : Int) (m e : Int)
    (hlim : n ≤ maxAlloc) :
    alloc fuel host [.int n] = some (.ok (List.replicate n 0))
      ∧ alloc fuel host [.int n, .undefined] = some (.ok (List.replicate n 0))
      ∧ alloc fuel host [.int n, .int v] = some (.ok (List.replicate n (byteOfInt v)))
      ∧ ((byteOfInt v).val : Int) = v % 256
      ∧ byteOfInt 255 = 255 ∧ byteOfInt 256 = 0 ∧ byteOfInt 300 = 44 ∧ byteOfInt (-1) = 255
      ∧ (0 ≤ e → minInt64 ≤ m * 2 ^ e.toNat → m * 2 ^ e.toNat ≤ maxInt64 →
          alloc fuel host [.int n, .float (.fin m e)]
            = some (.ok (List.replicate n (byteOfInt (m * 2 ^ e.toNat)))))
      ∧ alloc fuel host [.int n, .float .nan] = some (.ok (List.replicate n 0))
      ∧ alloc fuel host [.int n, .float .posInf] = some (.ok (List.replicate n 0))
      ∧ alloc fuel host [.int n, .float .negInf] = some (.ok (List.replicate n 0)) := by
  refine ⟨(alloc_no_fill fuel host n hlim).1, (alloc_no_fill fuel host n hlim).2, ?_,
    byteOfInt_val v, by decide, by decide, by decide, by decide, ?_, ?_, ?_, ?_⟩
  · have := alloc_numeric fuel host n (.int v) [] hlim (by simp)
      (by simp [isString, Value.ExportType]) (.int v) rfl v rfl
    simpa [IsNaN, IsInfinity] using this
  · intro he hlo hhi
    have := alloc_numeric fuel host n (.float (.fin m e)) [] hlim (by simp)
      (by simp [isString, Value.ExportType]) (.float (.fin m e)) rfl (m * 2 ^ e.toNat)
      (by simp [Value.ToInteger, F64.toInteger, truncF64, he, hlo, hhi])
    simpa [IsNaN, IsInfinity] using this
  · have := alloc_numeric fuel host n (.float .nan) [] hlim (by simp)
      (by simp [isString, Value.ExportType]) (.float .nan) rfl 0 rfl
    simpa [IsNaN, IsInfinity] using this
  · have := alloc_numeric fuel host n (.float .posInf) [] hlim (by simp)
      (by simp [isString, Value.ExportType]) (.float .posInf) rfl maxInt64 rfl
    simpa [IsNaN, IsInfinity] using this
  · have := alloc_numeric fuel host n (.float .negInf) [] hlim (by simp)
      (by simp [isString, Value.ExportType]) (.float .negInf) rfl minInt64 rfl
    simpa [IsNaN, IsInfinity] using this

/-- C9 (witness): `alloc(3, 300.0)`, the float `75 * 2^2`, gives three bytes 44. -/
theorem C9_alloc_contents_witness :
    alloc 0 plainHost [.int 3, .float (.fin 75 2)] = some (.ok [44, 44, 44]) :=
  (C9_alloc_contents 0 plainHost 3 0 75 2 (by decide)).2.2.2.2.2.2.2.2.1 (by decide) (by decide)
    (by decide)

/-- Every failure of `alloc`: `InvalidArgType` from the size check alone, otherwise a panic of
`make`, the unknown encoding of a string fill, or an error thrown by a conversion. -/
theorem alloc_error (fuel : Nat) (host : Host) (args : List Value) (e : Failure)
    (he : alloc fuel host args = some (.error e)) :
    (isNumber host (Argument args 0) = false ∧ e = .invalidArgType)
      ∨ (isNumber host (Argument args 0) = true
          ∧ ∃ n, (Argument args 0).ToInteger host = .ok n ∧ n < 0 ∧ e = .invalidArgType)
      ∨ e = .runtimePanic ∨ e = .unknownEncoding ∨ e = .hostError := by
  cases hnum : isNumber host (Argument args 0) with
  | false =>
    left
    simp [alloc, hnum] at he
    exact ⟨rfl, he.symm⟩
  | true =>
    right
    cases hint : (Argument args 0).ToInteger host with
    | error e2 =>
      have := ToInteger_error host _ e2 hint
      subst this
      simp [alloc, hnum, hint] at he
      exact Or.inr (Or.inr (Or.inr he.symm))
    | ok size =>
      by_cases hneg : size < 0
      · left
        simp [alloc, hnum, hint, hneg] at he
        exact ⟨rfl, size, rfl, hneg, he.symm⟩
      · right
        simp only [alloc, hnum, hint, hneg, if_true, if_false] at he
        cases hm : makeslice [] size with
        | error e3 =>
          have := makeslice_error _ _ _ hm
          subst this
          simp [hm] at he
          exact Or.inl he.symm
        | ok p =>
          obtain ⟨h, buf⟩ := p
          simp only [hm] at he
          by_cases hu : IsUndefined (Argument args 1) = true
          · simp [hu, fromBytes] at he
          · simp only [hu, Bool.not_true, Bool.not_false, Bool.false_eq_true, if_true,
              if_false] at he
            by_cases hs : isString host (Argument args 1) = true
            · simp only [hs, if_true] at he
              cases hstr : (Argument args 1).String host with
              | error e4 =>
                have := String_error _ _ _ hstr
                subst this
                simp [hstr] at he
                exact Or.inr (Or.inr he.symm)
              | ok fillStr =>
                simp only [hstr] at he
                cases hf : fill fuel host h buf fillStr
                    (if isString host (Argument args 2) = true then Argument args 2
                      else .undefined) with
                | none => simp [hf] at he
                | some r =>
                  cases r with
                  | error e5 =>
                    simp [hf] at he
                    subst he
                    rcases fill_error _ _ _ _ _ _ _ hf with h1 | h1 | h1
                    · exact Or.inr (Or.inl h1)
                    · exact Or.inl h1
                    · exact Or.inr (Or.inr h1)
                  | ok q => simp [hf, fromBytes] at he
            · simp only [hs, Bool.false_eq_true, if_false] at he
              cases hn : (Argument args 1).ToNumber host with
              | error e6 =>
                have := ToNumber_error _ _ _ hn
                subst this
                simp [hn] at he
                exact Or.inr (Or.inr he.symm)
              | ok num =>
                simp only [hn] at he
                by_cases hfin : (!IsNaN num && !IsInfinity num) = true
                · simp only [hfin, if_true] at he
                  cases hk : num.ToInteger host with
                  | error e7 =>
                    have := ToInteger_error _ _ _ hk
                    subst this
                    simp [hk] at he
                    exact Or.inr (Or.inr he.symm)
                  | ok k =>
                    simp only [hk] at he
                    by_cases hz : byteOfInt k = 0
                    · simp [hz, fromBytes] at he
                    · simp only [ne_eq, hz, not_false_eq_true, if_true] at he
                      cases hst : storeAll buf (byteOfInt k) buf.len 0 h with
                      | error e8 =>
                        have := storeAll_error _ _ _ _ _ _ hst
                        subst this
                        simp [hst] at he
                        exact Or.inl he.symm
                      | ok h1 => simp [hst, fromBytes] at he
                · simp [hfin, fromBytes] at he

/-- C8 (counterexample): `alloc(-0.5)`.  The size is a negative number, `-1 * 2^-1`, and the
call does not raise: it returns the empty buffer. -/
theorem C8_negative_fraction_accepted :
    alloc 0 plainHost [.float (.fin (-1) (-1))] = some (.ok []) := by
  decide

/-- C8 (amended): `alloc(size, ...)` raises `InvalidArgType` if and only if `size` is not a
number or its conversion to an integer, which truncates toward zero, is negative; a finite
float in the `int64` range is thus rejected exactly when its truncation is below zero, that is
when it is at most -1. -/
theorem C8_alloc_size_check (fuel : Nat) (host : Host) (args : List Value) (m e : Int) :
    (alloc fuel host args = some (.error .invalidArgType)
        ↔ (isNumber host (Argument args 0) = false
            ∨ ∃ n, (Argument args 0).ToInteger host = .ok n ∧ n < 0))
      ∧ (minInt64 ≤ truncF64 m e → truncF64 m e ≤ maxInt64 →
          (alloc fuel host (.float (.fin m e) :: args.tail) = some (.error .invalidArgType)
            ↔ truncF64 m e < 0)) := by
  have main : ∀ args : List Value, alloc fuel host args = some (.error .invalidArgType)
        ↔ (isNumber host (Argument args 0) = false
            ∨ ∃ n, (Argument args 0).ToInteger host = .ok n ∧ n < 0) := by
    intro args
    cases hnum : isNumber host (Argument args 0) with
    | false => simp [alloc, hnum]
    | true =>
      cases hint : (Argument args 0).ToInteger host with
      | error e2 =>
        have := ToInteger_error host _ e2 hint
        subst this
        simp [alloc, hnum, hint]
      | ok size =>
        by_cases hneg : size < 0
        · simp [alloc, hnum, hint, hneg]
        · simp only [hneg, Bool.true_eq_false, false_or, Except.ok.injEq, exists_eq_left',
            iff_false]
          intro hc
          rcases alloc_error fuel host args .invalidArgType hc with h | h | h | h
          · rw [hnum] at h; cases h.1
          · rw [hnum, hint] at h
            obtain ⟨_, n, hn, hlt⟩ := h
            cases hn
            exact hneg hlt.1
          · cases h
          · rcases h with h | h <;> cases h
  refine ⟨main args, ?_⟩
  intro hlo hhi
  rw [main]
  simp [Argument, isNumber, Value.ExportType, Value.ToInteger, F64.toInteger, hlo, hhi]

/-- C8 (witness): `alloc(-1.5)`, the float `-3 * 2^-1`, truncates to -1 and is rejected. -/
theorem C8_alloc_size_check_witness :
    alloc 0 plainHost [.float (.fin (-3) (-1))] = some (.error .invalidArgType) :=
  ((C8_alloc_size_check 0 plainHost [] (-3) (-1)).2 (by decide) (by decide)).2 (by decide)

/-! ## Array-like construction -/

theorem fromItems_eq (host : Host) (info : ObjectInfo) (n : Nat) : ∀ (k i : Nat) (P : List Byte),
    P.length = i → i + k = n →
    (∀ j, j < n → ∀ it, info.item j = some it → ∃ v, it.ToInteger host = .ok v) →
    fromItems host info ⟨0, 0, n, n⟩ k i [P ++ List.replicate k 0]
      = .ok [P ++ (List.range' i k).map (itemByte host info)]
  | 0, i, P, _, _, _ => by simp [fromItems]
  | k + 1, i, P, hP, hn, hit => by
    have hi : i < n := by omega
    have ih := fromItems_eq host info n k (i + 1)
    unfold fromItems
    cases hitem : info.item i with
    | none =>
      have hb : itemByte host info i = 0 := by simp [itemByte, hitem]
      have := ih (P ++ [0]) (by simp [hP]) (by omega) hit
      simp only [List.append_assoc, List.singleton_append] at this
      simp only [List.replicate_succ, this, List.range'_succ, List.map_cons, hb]
    | some it =>
      obtain ⟨v, hv⟩ := hit i hi it hitem
      have hb : itemByte host info i = byteOfInt v := by simp [itemByte, hitem, hv]
      have := ih (P ++ [byteOfInt v]) (by simp [hP]) (by omega) hit
      simp only [List.append_assoc, List.singleton_append] at this
      subst hP
      simp only [hv, Slice.store, hi, if_true, Nat.zero_add, List.replicate_succ, write_single,
        this, List.range'_succ, List.map_cons, hb]

theorem fromArrayLike_eq (host : Host) (info : ObjectInfo) (n : Nat) (v : Value)
    (hlim : n ≤ maxAlloc)
    (hlen : info.length = some v) (hv : v.ToInteger host = .ok (n : Int))
    (hit : ∀ j, j < n → ∀ it, info.item j = some it → ∃ k, it.ToInteger host = .ok k) :
    fromArrayLike host info = .ok ((List.range n).map (itemByte host info)) := by
  have hneg : ¬ ((n : Int) < 0) := not_lt.2 (Int.ofNat_nonneg n)
  have h := fromItems_eq host info n n 0 [] rfl (by simp) hit
  simp only [List.nil_append] at h
  have hl : ((List.range' 0 n).map (itemByte host info)).length = n := by simp
  have hb := bytes_whole ((List.range' 0 n).map (itemByte host info))
  rw [hl] at hb
  have hm := makeslice_of_le [] n hlim
  simp only [List.nil_append, List.length_nil] at hm
  simp only [fromArrayLike, hlen, hv, hm, Int.toNat_ofNat, h, fromBytes, hb,
    List.range_eq_range']

/-- C10 (counterexample): `from({length: 2^62})`.  The object is array-like with a
non-negative integer length, and the call does not return a buffer: `make([]byte, length)`
panics, the length being out of range. -/
theorem C10_huge_length_panics :
    «from» hugeLengthHost 1 [.obj 0] = some (.error .runtimePanic) := by
  decide

/-- C10 (amended): array-like construction.  For an object that exports neither an array
buffer, a string nor bytes, whose `valueOf` is absent or returns the object itself, that has no
callable `Symbol.toPrimitive`, whose `length` converts to the integer `n ≥ 0` within the
allocation limit and whose present indexed properties convert to integers, `from(obj)` returns
exactly `n` bytes; byte `i` is the integer value of `obj[i]` mod 256 when index `i` is present,
and `0` when it is missing or undefined. -/
theorem C10_from_array_like (host : Host) (fuel : Nat) (o : Nat) (rest : List Value) (n : Nat)
    (v : Value) (hlim : n ≤ maxAlloc)
    (hexp : (host.objects o).exportType ≠ .arrayBuffer ∧ (host.objects o).exportType ≠ .string
      ∧ (host.objects o).exportType ≠ .bytes)
    (hval : (host.objects o).valueOf = none
      ∨ (host.objects o).valueOf = some (.returns (.obj o)))
    (hprim : (host.objects o).toPrimitive = none ∨ (host.objects o).toPrimitive = some none)
    (hlen : (host.objects o).length = some v) (hv : v.ToInteger host = .ok (n : Int))
    (hit : ∀ j, j < n → ∀ it, (host.objects o).item j = some it →
      ∃ k, it.ToInteger host = .ok k) :
    «from» host (fuel + 1) (.obj o :: rest)
        = some (.ok ((List.range n).map (itemByte host (host.objects o))))
      ∧ ((List.range n).map (itemByte host (host.objects o))).length = n
      ∧ (∀ i it k, (host.objects o).item i = some it → it.ToInteger host = .ok k →
          ((itemByte host (host.objects o) i).val : Int) = k % 256)
      ∧ (∀ i, (host.objects o).item i = none ∨ (host.objects o).item i = some .undefined →
          itemByte host (host.objects o) i = 0) := by
  have ha := fromArrayLike_eq host (host.objects o) n v hlim hlen hv hit
  refine ⟨?_, by simp, ?_, ?_⟩
  · obtain ⟨h1, h2, h3⟩ := hexp
    have hstep : _from host (fuel + 1) (.obj o :: rest)
        = some (fromArrayLike host (host.objects o)) := by
      simp only [_from, fromStep, Value.ExportType]
      cases he : (host.objects o).exportType <;> simp only [he] at h1 h2 h3 ⊢ <;>
        first
          | exact absurd rfl h1
          | exact absurd rfl h2
          | exact absurd rfl h3
          | (rcases hval with hv1 | hv1 <;> rcases hprim with hp | hp <;>
              simp [hv1, hp, he])
    rw [«from», hstep, ha]
  · intro i it k h1 h2
    simp only [itemByte, h1, h2]
    exact byteOfInt_val k
  · intro i hi
    rcases hi with h | h <;> simp [itemByte, h, Value.ToInteger, byteOfInt, byteOf]

/-- C10 (witness): the object with `length` 3 and indexed values 10, 300 and undefined gives
the bytes 10, 44, 0. -/
theorem C10_from_array_like_witness :
    «from» exampleArrayLike 1 [.obj 0] = some (.ok [10, 44, 0]) :=
  (C10_from_array_like exampleArrayLike 0 0 [] 3 (.int 3) (by decide) (by decide) (by decide)
    (by decide)
    rfl rfl (by
      intro j hj it h
      match j, hj with
      | 0, _ => exact ⟨10, by cases h; rfl⟩
      | 1, _ => exact ⟨300, by cases h; rfl⟩
      | 2, _ => exact ⟨0, by cases h; rfl⟩)).1.trans (by decide)

/-! ## `equals` -/

theorem bytesEqual_iff : ∀ a b : List Byte, bytesEqual a b = true ↔ a = b
  | [], [] => by simp [bytesEqual]
  | [], _ :: _ => by simp [bytesEqual]
  | _ :: _, [] => by simp [bytesEqual]
  | x :: as, y :: bs => by
    simp [bytesEqual, bytesEqual_iff as bs]

theorem list_eq_iff_index (a b : List Byte) :
    a = b ↔ a.length = b.length ∧ ∀ i, i < a.length → a.get? i = b.get? i := by
  constructor
  · rintro rfl
    exact ⟨rfl, fun _ _ => rfl⟩
  · rintro ⟨hl, hi⟩
    apply List.ext_get? 
    intro n
    by_cases hn : n < a.length
    · exact hi n hn
    · have h1 : a.get? n = none := List.get?_eq_none.2 (by omega)
      have h2 : b.get? n = none := List.get?_eq_none.2 (by omega)
      rw [h1, h2]

/-- C11: `equals`.  On a receiver whose bytes are `a`, a buffer for one: when the argument is
an instance of the byte-array view type with the bytes `b` (for a byte-exporting object, the
bytes it exports) the call returns a boolean, true exactly when `a` and `b` have the same
length and the same byte at every index; a proper prefix is never equal.  When the argument
is not such an instance, a plain string for one, the call raises `InvalidArgType`.  A receiver
or an instance that exports no bytes and whose conversion to a string throws passes that
error on. -/
theorem C11_equals (host : Host) (this other : Value) (rest : List Value) (s : GoString)
    (a b ext : List Byte) :
    (Bytes host this = .ok a →
        (InstanceOfUint8Array host other = true → Bytes host other = .ok b →
          ∃ r, proto_equals host this (other :: rest) = .ok r
            ∧ (r = true ↔ a.length = b.length
                ∧ ∀ i, i < a.length → a.get? i = b.get? i))
        ∧ (InstanceOfUint8Array host other = false →
            proto_equals host this (other :: rest) = .error .invalidArgType)
        ∧ proto_equals host this (.str s :: rest) = .error .invalidArgType
        ∧ proto_equals host this [] = .error .invalidArgType
        ∧ (∀ e, InstanceOfUint8Array host other = true → Bytes host other = .error e →
            proto_equals host this (other :: rest) = .error e))
      ∧ (∀ e args, Bytes host this = .error e → proto_equals host this args = .error e)
      ∧ (∀ o, (host.objects o).exportType = .bytes →
          Bytes host (.obj o) = .ok (host.objects o).exportBytes)
      ∧ (ext ≠ [] → bytesEqual a (a ++ ext) = false) := by
  refine ⟨fun ha => ⟨?_, ?_, ?_, ?_, ?_⟩, ?_, fun o ho => by simp [Bytes, ho], ?_⟩
  · intro hi hb
    refine ⟨bytesEqual a b, ?_, ?_⟩
    · simp [proto_equals, Argument, hi, ha, hb]
    · rw [bytesEqual_iff, list_eq_iff_index]
  · intro hi
    simp [proto_equals, Argument, hi, ha]
  · simp [proto_equals, Argument, InstanceOfUint8Array, ha]
  · simp [proto_equals, Argument, InstanceOfUint8Array, ha]
  · intro e hi hb
    simp [proto_equals, Argument, hi, ha, hb]
  · intro e args he
    simp [proto_equals, he]
  · intro hne
    cases hb : bytesEqual a (a ++ ext) with
    | false => rfl
    | true =>
      have := (bytesEqual_iff _ _).1 hb
      have hlen := congrArg List.length this
      simp only [List.length_append] at hlen
      have : ext.length = 0 := by omega
      exact absurd (List.eq_nil_of_length_eq_zero this) hne

/-- C11 (witness): `from("abc").equals(from("abc"))` is true. -/
theorem C11_equals_witness :
    proto_equals (viewHost (fun _ => ascii "abc")) (.obj 0) [.obj 1] = .ok true := by
  obtain ⟨r, hr, hiff⟩ :=
    ((C11_equals (viewHost (fun _ => ascii "abc")) (.obj 0) (.obj 1) [] [] (ascii "abc")
      (ascii "abc") []).1 rfl).1 (by decide) rfl
  rw [hr]
  exact congrArg Except.ok (hiff.2 (by decide))

/-! ## The constructor, `EncodeBytes`, unbounded coercion, negative length, the environment -/

/-- C12 (counterexample): `new Buffer(new Number(5))`.  The first argument is an object, not a
plain number, yet the constructor raises the not-implemented failure while `from` on the same
argument raises `InvalidArgType`: the wrapper object exports as an integer. -/
theorem C12_number_object_differs :
    ctor numberObjectHost 2 [.obj 0] = some (.error .notImplemented)
      ∧ «from» numberObjectHost 2 [.obj 0] = some (.error .invalidArgType) := by
  decide

/-- C12 (amended): the constructor.  When the first argument exports as an integer or a float,
a number value or a Number wrapper object, the constructor raises the not-implemented
failure; for every other argument list, the empty one included, its outcome is the outcome of
`from` on the same arguments. -/
theorem C12_ctor (host : Host) (fuel : Nat) (args rest : List Value) (i : Int) (f : F64) :
    ctor host fuel (.int i :: rest) = some (.error .notImplemented)
      ∧ ctor host fuel (.float f :: rest) = some (.error .notImplemented)
      ∧ (isNumber host (Argument args 0) = true →
          ctor host fuel args = some (.error .notImplemented))
      ∧ (isNumber host (Argument args 0) = false →
          ctor host fuel args = «from» host fuel args) := by
  refine ⟨rfl, rfl, ?_, ?_⟩
  · intro h
    unfold isNumber at h
    unfold ctor
    cases he : (Argument args 0).ExportType host <;> simp [he] at h ⊢
  · intro h
    unfold isNumber at h
    unfold ctor «from»
    cases he : (Argument args 0).ExportType host <;> simp [he] at h ⊢

/-- C12 (witness): `new Buffer("ab")` is `from("ab")`. -/
theorem C12_ctor_witness :
    ctor plainHost 1 [.str (ascii "ab")] = «from» plainHost 1 [.str (ascii "ab")] :=
  (C12_ctor plainHost 1 [.str (ascii "ab")] [] 0 .nan).2.2.2 (by decide)

theorem WrapBytes_ne_unknownEncoding (g : BufferGlobal) (data : List Byte) :
    WrapBytes g data ≠ .error .unknownEncoding := by
  unfold WrapBytes
  cases g with
  | notObject => simp
  | withApi => simp [fromBytes]
  | withFrom f =>
    simp only
    cases f data with
    | throws => simp
    | returns v => by_cases hv : v = .undefined ∨ v = .null <;> simp [hv]
  | plain => simp

/-- C13 (counterexample): `EncodeBytes(r, data, enc)` with `enc` an object whose conversion to
a string throws fails on the encoding argument; and with the unsupported name `latin1`, in a
runtime whose `Buffer` is an object without the package's handle and without a callable
`from`, it raises a TypeError instead of returning a Buffer. -/
theorem C13_EncodeBytes_can_fail :
    EncodeBytes .withApi throwingStringHost (ascii "ab") (.obj 0) = .error .hostError
      ∧ EncodeBytes .plain plainHost (ascii "ab") (.str (ascii "latin1"))
          = .error .typeError := by
  decide

/-- C13 (amended): `EncodeBytes` never raises `UnknownEncoding`.  When `enc` is defined and
converts to the name of a registered codec the result is the string `codec.Encode(data)`; when
`enc` is undefined or converts to a name that is not registered the result is what `WrapBytes`
gives, which in a runtime where `Buffer` is the package's constructor is a Buffer wrapping
exactly `data`; when the conversion of `enc` to a string raises, that error is raised. -/
theorem C13_EncodeBytes (g : BufferGlobal) (host : Host) (data : List Byte) (enc : Value) :
    (∀ name c, enc ≠ .undefined → enc.String host = .ok name → stringCodecs name = some c →
        EncodeBytes g host data enc = .ok (.text (c.Encode data)))
      ∧ (enc = .undefined ∨ (∃ name, enc.String host = .ok name ∧ stringCodecs name = none) →
          EncodeBytes g host data enc = WrapBytes g data
            ∧ EncodeBytes .withApi host data enc = .ok (.buffer data))
      ∧ (∀ e, enc ≠ .undefined → enc.String host = .error e →
          EncodeBytes g host data enc = .error e)
      ∧ EncodeBytes g host data enc ≠ .error .unknownEncoding := by
  have hw := WrapBytes_ne_unknownEncoding g data
  have h1 : ∀ name c, enc ≠ .undefined → enc.String host = .ok name →
      stringCodecs name = some c →
      EncodeBytes g host data enc = .ok (.text (c.Encode data)) := by
    intro name c hu hn hc
    simp [EncodeBytes, IsUndefined, hu, hn, StringCodecByName, hc]
  have h2 : ∀ g2 : BufferGlobal,
      enc = .undefined ∨ (∃ name, enc.String host = .ok name ∧ stringCodecs name = none) →
      EncodeBytes g2 host data enc = WrapBytes g2 data := by
    rintro g2 (hu | ⟨name, hn, hc⟩)
    · simp [EncodeBytes, IsUndefined, hu]
    · by_cases hu : enc = .undefined
      · simp [EncodeBytes, IsUndefined, hu]
      · simp [EncodeBytes, IsUndefined, hu, hn, StringCodecByName, hc]
  have h3 : ∀ e, enc ≠ .undefined → enc.String host = .error e →
      EncodeBytes g host data enc = .error e := by
    intro e hu he
    simp [EncodeBytes, IsUndefined, hu, he]
  refine ⟨h1, fun h => ⟨h2 g h, (h2 .withApi h).trans rfl⟩, h3, ?_⟩
  by_cases hu : enc = .undefined
  · rw [h2 g (Or.inl hu)]; exact hw
  · cases hs : enc.String host with
    | error e =>
      rw [h3 e hu hs]
      have := String_error host enc e hs
      subst this
      simp
    | ok name =>
      cases hc : stringCodecs name with
      | none => rw [h2 g (Or.inr ⟨name, hs, hc⟩)]; exact hw
      | some c => rw [h1 name c hu hs hc]; simp

/-- C13 (witness): an unsupported encoding name gives a Buffer of the data. -/
theorem C13_EncodeBytes_witness :
    EncodeBytes .withApi plainHost (ascii "ab") (.str (ascii "latin1"))
      = .ok (.buffer (ascii "ab")) :=
  ((C13_EncodeBytes .withApi plainHost (ascii "ab") (.str (ascii "latin1"))).2.1
    (Or.inr ⟨ascii "latin1", rfl, by decide⟩)).2

theorem from_self_diverges (host : Host) (args : List Value)
    (h : fromStep host args = .again args) : ∀ fuel, _from host fuel args = none
  | 0 => rfl
  | fuel + 1 => by
    simp only [_from, h]
    exact from_self_diverges host args h fuel

theorem from_fresh_diverges : ∀ (fuel k : Nat), _from freshValueOfHost fuel [.obj k] = none
  | 0, _ => rfl
  | fuel + 1, k => by
    have hs : fromStep freshValueOfHost [.obj k] = .again [.obj (k + 1)] := by
      simp [fromStep, freshValueOfHost, hostWith, plainObject, Value.ExportType]
    simp only [_from, hs]
    exact from_fresh_diverges fuel (k + 1)

/-- C16 (failing input): an object whose `Symbol.toPrimitive` returns the object itself, and
an object whose `valueOf` returns a fresh object each time.  In both cases one activation of
`_from` ends in the recursive call, and no bound on the depth of the recursion suffices for
`_from` to return. -/
theorem C16_from_coercion_diverges (fuel k : Nat) :
    fromStep selfPrimitiveHost [.obj 0] = .again [.obj 0]
      ∧ _from selfPrimitiveHost fuel [.obj 0] = none
      ∧ _from freshValueOfHost fuel [.obj k] = none :=
  ⟨by decide, from_self_diverges selfPrimitiveHost [.obj 0] (by decide) fuel,
    from_fresh_diverges fuel k⟩

/-- C18 (failing input): an object whose `length` is -1.  The array-like branch reaches
`make([]byte, -1)`, a run-time panic of Go and not a failure of the package's taxonomy. -/
theorem C18_negative_length_panics (fuel : Nat) :
    _from negativeLengthHost (fuel + 1) [.obj 0] = some (.error .runtimePanic) := by
  have hs : fromStep negativeLengthHost [.obj 0] = .done (.error .runtimePanic) := by decide
  simp only [_from, hs]

/-- C19 (failing input): the environment `["HOME=/root", "FOO"]`.  The entry `FOO` has no
`=`, `strings.SplitN` gives one element and `envKeyValue[1]` is out of range; an environment
whose entries all have `=` is mirrored. -/
theorem C19_require_env_panics :
    splitN2 (ascii "FOO") = [ascii "FOO"]
      ∧ Require [ascii "HOME=/root", ascii "FOO"] = .error .runtimePanic
      ∧ (Require [ascii "HOME=/root", ascii "A=b=c", ascii "HOME=/x"]).map
            (fun m => (m.get (ascii "HOME"), m.get (ascii "A")))
          = .ok (some (ascii "/x"), some (ascii "b=c")) := by
  decide

/-! ## The growth helper -/

theorem Heap.array_append_lt (h : Heap) (A : List Byte) (k : Nat) (hk : k < h.length) :
    Heap.array (h ++ [A]) k = h.array k := by
  simp [Heap.array, List.getD_eq_getElem?_getD, List.getElem?_append_left hk]

theorem Heap.array_append_self (h : Heap) (A : List Byte) :
    Heap.array (h ++ [A]) h.length = A := by
  simp [Heap.array, List.getD_eq_getElem?_getD]

theorem Heap.array_of_le (h : Heap) (k : Nat) (hk : h.length ≤ k) : h.array k = [] := by
  simp [Heap.array, List.getD_eq_getElem?_getD, List.getElem?_eq_none hk]

theorem WF_length_bytes (h : Heap) (b : Slice) (hwf : b.WF h) : (b.bytes h).length = b.len := by
  obtain ⟨h1, h2⟩ := hwf
  simp only [Slice.bytes, List.length_take, List.length_drop]
  omega

theorem bytes_append_heap (h : Heap) (A : List Byte) (b : Slice) (hwf : b.WF h) :
    b.bytes (h ++ [A]) = b.bytes h := by
  by_cases hk : b.arr < h.length
  · simp [Slice.bytes, Heap.array_append_lt h A _ hk]
  · have h0 := Heap.array_of_le h b.arr (by omega)
    obtain ⟨h1, h2⟩ := hwf
    rw [h0] at h2
    simp only [List.length_nil] at h2
    have hl : b.len = 0 := by omega
    simp [Slice.bytes, hl]

theorem write_append_self (h : Heap) (A bs : List Byte) (pos : Nat) :
    Heap.write (h ++ [A]) h.length pos bs
      = h ++ [A.take pos ++ bs ++ A.drop (pos + bs.length)] := by
  simp [Heap.write, Heap.array_append_self]

theorem expandSlice_fresh (h : Heap) (b : Slice) (l : Nat) (hwf : b.WF h)
    (hlt : b.cap - b.len < l) :
    expandSlice h b l = .ok (h ++ [b.bytes h ++ List.replicate l 0],
      ⟨h.length, b.len, l, l⟩, ⟨h.length, 0, b.len + l, b.len + l⟩) := by
  have hlen := WF_length_bytes h b hwf
  simp only [expandSlice, hlt, if_true, make, copySlice, copyBytes, bytes_append_heap h _ b hwf,
    hlen, Slice.sliceFrom, Slice.slice, Nat.le_add_right, Nat.le_refl, and_self,
    Nat.add_sub_cancel_left, Nat.zero_add, bind, Except.bind, pure, Except.pure,
    Nat.min_eq_right (Nat.le_add_right b.len l), write_append_self]
  have ht : (b.bytes h).take b.len = b.bytes h := List.take_of_length_le (by omega)
  have hd : (List.replicate (b.len + l) (0 : Byte)).drop b.len = List.replicate l 0 := by
    simp
  simp [ht, hlen, hd]

theorem expandSlice_reuse (h : Heap) (b : Slice) (l : Nat) (hwf : b.WF h)
    (hge : ¬ b.cap - b.len < l) :
    expandSlice h b l = .ok (h, ⟨b.arr, b.off + b.len, l, b.cap - b.len⟩,
      ⟨b.arr, b.off, b.len + l, b.cap⟩) := by
  obtain ⟨h1, h2⟩ := hwf
  have hc : b.len + l ≤ b.cap := by omega
  simp [expandSlice, hge, Slice.sliceTo, Slice.slice, hc, bind, Except.bind, pure, Except.pure]

/-- C15: the growth helper.  For every slice `b` that fits its array and every `l`,
`expandSlice(b, l)` returns `(dst, res)` with `len(dst) = l` and `len(res) = len(b) + l`; the
first `len(b)` bytes of `res` are the bytes of `b`; `dst` is the last `l` positions of `res`
(same array, offset by `len(b)`, so that storing at `dst[i]` is storing at `res[len(b)+i]`).
With too little spare capacity the array is a new one of exactly `len(b) + l` bytes and the
old arrays are untouched; otherwise the store is unchanged and `res` is `b` lengthened in
place. -/
theorem C15_expandSlice (h : Heap) (b : Slice) (l : Nat) (hwf : b.WF h) :
    ∃ h1 dst res, expandSlice h b l = .ok (h1, dst, res)
      ∧ dst.len = l ∧ res.len = b.len + l
      ∧ (res.bytes h1).take b.len = b.bytes h
      ∧ (res.bytes h1).drop b.len = dst.bytes h1
      ∧ dst.arr = res.arr ∧ dst.off = res.off + b.len
      ∧ res.WF h1 ∧ dst.WF h1
      ∧ (∀ i v, i < l → dst.store h1 i v = res.store h1 (b.len + i) v
          ∧ dst.store h1 i v = .ok (h1.write res.arr (res.off + b.len + i) [v]))
      ∧ (b.cap - b.len < l → res.arr = h.length ∧ res.off = 0 ∧ res.cap = b.len + l
          ∧ ∀ k, k < h.length → h1.array k = h.array k)
      ∧ (¬ b.cap - b.len < l → h1 = h ∧ res.arr = b.arr ∧ res.off = b.off
          ∧ res.cap = b.cap) := by
  have hlen := WF_length_bytes h b hwf
  by_cases hlt : b.cap - b.len < l
  · have hf := expandSlice_fresh h b l hwf hlt
    generalize b.bytes h = B at hf hlen ⊢
    refine ⟨_, _, _, hf, rfl, rfl, ?_, ?_, rfl, ?_, ?_, ?_, ?_, ?_, ?_⟩
    · simp only [Slice.bytes, Heap.array_append_self, List.drop_zero]
      rw [List.take_take, Nat.min_eq_left (Nat.le_add_right _ _),
        List.take_append_of_le_length (by omega), List.take_of_length_le (by omega)]
    · simp only [Slice.bytes, Heap.array_append_self, List.drop_zero]
      rw [List.take_of_length_le (by simp [hlen])]
      rw [← hlen, List.drop_left, List.take_of_length_le (by simp)]
    · simp
    · simp [Slice.WF, Heap.array_append_self, hlen]
    · simp [Slice.WF, Heap.array_append_self, hlen]
    · intro i v hi
      have h2 : b.len + i < b.len + l := by omega
      simp [Slice.store, hi, h2, Nat.add_assoc]
    · intro _
      exact ⟨rfl, rfl, rfl, fun k hk => Heap.array_append_lt h _ k hk⟩
    · intro hn; exact absurd hlt hn
  · obtain ⟨hw1, hw2⟩ := hwf
    have hc : b.len + l ≤ b.cap := by omega
    refine ⟨_, _, _, expandSlice_reuse h b l ⟨hw1, hw2⟩ hlt, rfl, rfl, ?_, ?_, rfl, rfl, ?_, ?_,
      ?_, ?_, ?_⟩
    · simp only [Slice.bytes]
      rw [List.take_take, Nat.min_eq_left (Nat.le_add_right _ _)]
    · simp only [Slice.bytes]
      rw [List.drop_take, List.drop_drop, Nat.add_sub_cancel_left]
    · exact ⟨hc, hw2⟩
    · refine ⟨?_, ?_⟩ <;> simp only <;> omega
    · intro i v hi
      have h2 : b.len + i < b.len + l := by omega
      simp [Slice.store, hi, h2, Nat.add_assoc]
    · intro hc2; exact absurd hc2 hlt
    · intro _; exact ⟨rfl, rfl, rfl, rfl⟩

/-- C15 (witness): three bytes with two bytes of spare capacity, lengthened by two. -/
theorem C15_expandSlice_witness :
    ∃ h1 dst res, expandSlice [[1, 2, 3, 0, 0]] ⟨0, 0, 3, 5⟩ 2 = .ok (h1, dst, res)
      ∧ dst.len = 2 ∧ res.len = 3 + 2 := by
  obtain ⟨h1, dst, res, he, hd, hr, _⟩ :=
    C15_expandSlice [[1, 2, 3, 0, 0]] ⟨0, 0, 3, 5⟩ 2 ⟨by decide, by decide⟩
  exact ⟨h1, dst, res, he, hd, hr⟩

/-! ## Decoding onto an existing slice -/

theorem take_drop_overwrite (A : List Byte) (o m : Nat) (out : List Byte)
    (hfit : o + m + out.length ≤ A.length) :
    ((A.take (o + m) ++ out ++ A.drop (o + m + out.length)).drop o).take (m + out.length)
      = (A.drop o).take m ++ out := by
  have h1 : A.take (o + m) = A.take o ++ (A.drop o).take m := List.take_add A o m
  have h2 : (A.take o).length = o := by simp [List.length_take]; omega
  have h3 : ((A.drop o).take m).length = m := by simp [List.length_take, List.length_drop]; omega
  rw [h1, List.append_assoc, List.append_assoc]
  nth_rewrite 1 [← h2]
  rw [List.drop_left, ← List.append_assoc]
  rw [List.take_append_of_le_length (by simp [h3]), List.take_of_length_le (by simp [h3])]

theorem Heap.array_length_pos (h : Heap) (k : Nat) (hp : 0 < (h.array k).length) :
    k < h.length := by
  by_contra hk
  rw [Heap.array_of_le h k (by omega)] at hp
  simp at hp

theorem bytes_after_write (h1 : Heap) (k o m cap : Nat) (out : List Byte)
    (hfit : o + m + out.length ≤ (h1.array k).length) :
    Slice.bytes (h1.write k (o + m) out) ⟨k, o, m + out.length, cap⟩
      = ((h1.array k).drop o).take m ++ out := by
  cases out with
  | nil => simp [Heap.write_nil, Slice.bytes]
  | cons x xs =>
    have hk : k < h1.length := Heap.array_length_pos h1 k (by simp at hfit; omega)
    simp only [Slice.bytes, Heap.array_write_same h1 k _ _ hk]
    exact take_drop_overwrite _ o m _ hfit

theorem decoded_le_reserved (c : StringCodec) (s : GoString) :
    (decodedBytes c s).length ≤ reservedLen c s := by
  cases c
  · exact hexPairs_length_le s
  · exact Nat.le_refl _
  · simpa [reservedLen, decodedBytes, rawDecodedLen] using
      length_base64DecodeBytes_le s [] (by simp)
  · simpa [reservedLen, decodedBytes, rawDecodedLen] using
      length_base64DecodeBytes_le s [] (by simp)

theorem hexDecode_eq (h : Heap) (d : Slice) (s : List Byte)
    (hfit : d.off + d.len ≤ (h.array d.arr).length) (hl : s.length / 2 ≤ d.len) :
    hexDecode h d s = .ok (h.write d.arr d.off (hexPairs s), (hexPairs s).length, hexErr s) := by
  by_cases h0 : s.length / 2 = 0
  · have hs : s = [] ∨ ∃ c, s = [c] := by
      match s, h0 with
      | [], _ => exact Or.inl rfl
      | [c], _ => exact Or.inr ⟨c, rfl⟩
      | _ :: _ :: r, h0 => simp at h0; omega
    rcases hs with rfl | ⟨c, rfl⟩ <;>
      simp [hexDecode, hexDecodeFrom, hexPairs, hexErr, Heap.write_nil]
  · have hk : d.arr < h.length := Heap.array_length_pos h d.arr (by omega)
    have := hexDecodeFrom_eq d s h 0 hk hfit (by omega)
    simpa [hexDecode] using this

theorem DecodeAppend_of_expand (c : StringCodec) (h : Heap) (s : GoString) (b : Slice)
    (h1 : Heap) (dst res : Slice)
    (he : expandSlice h b (reservedLen c s) = .ok (h1, dst, res))
    (hd : dst.len = reservedLen c s) (hda : dst.arr = res.arr) (hdo : dst.off = res.off + b.len)
    (hrl : res.len = b.len + reservedLen c s) (hrc : res.len ≤ res.cap)
    (hfit : dst.off + dst.len ≤ (h1.array dst.arr).length) :
    c.DecodeAppend h s b
      = .ok (h1.write res.arr (res.off + b.len) (decodedBytes c s),
          ⟨res.arr, res.off, b.len + (decodedBytes c s).length, res.cap⟩) := by
  have hle := decoded_le_reserved c s
  have hb64 : ∀ (hres : reservedLen c s = rawDecodedLen s.length)
      (_ : decodedBytes c s = base64DecodeBytes s []),
      Base64DecodeAppend h b s
        = .ok (h1.write res.arr (res.off + b.len) (decodedBytes c s),
          ⟨res.arr, res.off, b.len + (decodedBytes c s).length, res.cap⟩) := by
    intro hres hdec
    rw [hres] at he hd hrl hle
    rw [hdec] at hle ⊢
    have hle2 : (base64DecodeBytes s []).length ≤ dst.len := by omega
    have hc : b.len + (base64DecodeBytes s []).length ≤ res.cap := by omega
    simp [Base64DecodeAppend, he, DecodeBase64, hle2, copyBytes, Nat.min_eq_right hle2,
      Slice.sliceTo, Slice.slice, hc, hda, hdo, bind, Except.bind, pure, Except.pure]
  cases c with
  | hex =>
    simp only [reservedLen, decodedBytes, hexDecodedLen] at he hd hrl hle ⊢
    have hdec := hexDecode_eq h1 dst s hfit (by omega)
    simp only [StringCodec.DecodeAppend, hexCodec.DecodeAppend, hexDecodedLen, he, hdec, bind,
      Except.bind, pure, Except.pure]
    cases herr : hexErr s with
    | true =>
      have hc : b.len + (hexPairs s).length ≤ res.cap := by omega
      simp [Slice.sliceTo, Slice.slice, hc, hda, hdo]
    | false =>
      have hn := hexPairs_length_of_noErr s herr
      simp only [Bool.false_eq_true, if_false, hda, hdo, hn, ← hrl]
  | utf8 =>
    simp only [reservedLen, decodedBytes] at he hd hrl hle ⊢
    simp [StringCodec.DecodeAppend, _utf8Codec.DecodeAppend, he, copyBytes, hd, hda, hdo,
      ← hrl, bind, Except.bind, pure, Except.pure]
  | base64 => exact hb64 rfl rfl
  | base64Url => exact hb64 rfl rfl

theorem DecodeAppend_append (c : StringCodec) (h : Heap) (s : GoString) (b : Slice)
    (hwf : b.WF h) :
    resultBytes (c.DecodeAppend h s b) = .ok (b.bytes h ++ decodedBytes c s) := by
  have hlen := WF_length_bytes h b hwf
  have hle := decoded_le_reserved c s
  by_cases hlt : b.cap - b.len < reservedLen c s
  · have he := expandSlice_fresh h b (reservedLen c s) hwf hlt
    have := DecodeAppend_of_expand c h s b _ _ _ he rfl rfl (by simp) rfl (Nat.le_refl _)
      (by simp [Heap.array_append_self, hlen])
    rw [this]
    simp only [resultBytes, Except.map, Nat.zero_add]
    have hb := bytes_after_write (h ++ [b.bytes h ++ List.replicate (reservedLen c s) 0])
      h.length 0 b.len (b.len + reservedLen c s) (decodedBytes c s)
      (by simp [Heap.array_append_self, hlen]; omega)
    simp only [Nat.zero_add] at hb
    rw [hb, Heap.array_append_self, List.drop_zero, ← hlen, List.take_left]
  · obtain ⟨hw1, hw2⟩ := hwf
    have he := expandSlice_reuse h b (reservedLen c s) ⟨hw1, hw2⟩ hlt
    have := DecodeAppend_of_expand c h s b _ _ _ he rfl rfl rfl rfl (by simp only; omega)
      (by simp only; omega)
    rw [this]
    simp only [resultBytes, Except.map]
    rw [bytes_after_write h b.arr b.off b.len b.cap (decodedBytes c s) (by omega)]
    rfl

/-- C14: `DecodeAppend` appends.  For every codec, every text `s` and every slice `b` that
fits its array, with whatever spare capacity, decoding `s` onto the nil slice gives some bytes
`d`, the bytes the codec decodes `s` to whatever `b` is, and decoding `s` onto `b` gives the
bytes of `b` followed by `d`: the bytes of `b` are the first `len(b)` bytes of the result and
`d` is the rest. -/
theorem C14_DecodeAppend_appends (c : StringCodec) (h : Heap) (s : GoString) (b : Slice)
    (hwf : b.WF h) :
    ∃ d, resultBytes (c.DecodeAppend h s nilSlice) = .ok d
      ∧ d = decodedBytes c s
      ∧ resultBytes (c.DecodeAppend h s b) = .ok (b.bytes h ++ d)
      ∧ (b.bytes h ++ d).take b.len = b.bytes h
      ∧ (b.bytes h ++ d).drop b.len = d := by
  have hlen := WF_length_bytes h b hwf
  refine ⟨decodedBytes c s, DecodeAppend_nil c h s, rfl, DecodeAppend_append c h s b hwf, ?_, ?_⟩
  · rw [← hlen, List.take_left]
  · rw [← hlen, List.drop_left]

/-- C14 (witness): the hex text `6162zz` decoded onto the three bytes 1, 2, 3 that have two
bytes of spare capacity. -/
theorem C14_DecodeAppend_appends_witness :
    resultBytes (StringCodec.DecodeAppend .hex [[1, 2, 3, 0, 0]] (ascii "6162zz") ⟨0, 0, 3, 5⟩)
      = .ok [1, 2, 3, 97, 98] := by
  obtain ⟨d, _, hd, hr, _⟩ :=
    C14_DecodeAppend_appends .hex [[1, 2, 3, 0, 0]] (ascii "6162zz") ⟨0, 0, 3, 5⟩
      ⟨by decide, by decide⟩
  rw [hr, hd]
  decide

/-! ## UTF-8 -/

set_option maxRecDepth 100000 in
theorem utf8First_two : ∀ b0 : Byte, 194 ≤ b0.val → b0.val ≤ 223 →
    ¬ b0.val < 128 ∧ utf8First b0 = some (2, 128, 191) := by
  decide

set_option maxRecDepth 100000 in
theorem utf8First_three : ∀ b0 : Byte,
    (225 ≤ b0.val ∧ b0.val ≤ 236) ∨ (238 ≤ b0.val ∧ b0.val ≤ 239) →
    ¬ b0.val < 128 ∧ utf8First b0 = some (3, 128, 191) := by
  decide

set_option maxRecDepth 100000 in
theorem utf8First_four : ∀ b0 : Byte, 241 ≤ b0.val → b0.val ≤ 243 →
    ¬ b0.val < 128 ∧ utf8First b0 = some (4, 128, 191) := by
  decide

theorem isCont_of (b : Byte) (h1 : 128 ≤ b.val) (h2 : b.val ≤ 191) : isCont b = true := by
  simp [isCont, h1, h2]

theorem runeShape_one (b0 : Byte) (rest : List Byte) (h : b0.val < 128) :
    runeShape b0 rest = .valid 1 := by
  simp [runeShape, h]

theorem runeShape_two (b0 b1 : Byte) (rest : List Byte) (lo hi : Nat)
    (h0 : ¬ b0.val < 128) (hf : utf8First b0 = some (2, lo, hi))
    (h1 : lo ≤ b1.val) (h2 : b1.val ≤ hi) :
    runeShape b0 (b1 :: rest) = .valid 2 := by
  have hn : ¬ (b1.val < lo ∨ hi < b1.val) := by omega
  simp [runeShape, h0, hf, hn]

theorem runeShape_three (b0 b1 b2 : Byte) (rest : List Byte) (lo hi : Nat)
    (h0 : ¬ b0.val < 128) (hf : utf8First b0 = some (3, lo, hi))
    (h1 : lo ≤ b1.val) (h2 : b1.val ≤ hi) (h3 : 128 ≤ b2.val) (h4 : b2.val ≤ 191) :
    runeShape b0 (b1 :: b2 :: rest) = .valid 3 := by
  have hn : ¬ (b1.val < lo ∨ hi < b1.val) := by omega
  simp [runeShape, h0, hf, hn, isCont_of b2 h3 h4]

theorem runeShape_four (b0 b1 b2 b3 : Byte) (rest : List Byte) (lo hi : Nat)
    (h0 : ¬ b0.val < 128) (hf : utf8First b0 = some (4, lo, hi))
    (h1 : lo ≤ b1.val) (h2 : b1.val ≤ hi) (h3 : 128 ≤ b2.val) (h4 : b2.val ≤ 191)
    (h5 : 128 ≤ b3.val) (h6 : b3.val ≤ 191) :
    runeShape b0 (b1 :: b2 :: b3 :: rest) = .valid 4 := by
  have hn : ¬ (b1.val < lo ∨ hi < b1.val) := by omega
  simp [runeShape, h0, hf, hn, isCont_of b2 h3 h4, isCont_of b3 h5 h6]

/-- Every well-formed sequence starts with a well-formed encoding of 1 to 4 bytes, followed
by a well-formed sequence. -/
theorem WellFormed.head {s : List Byte} (hs : WellFormed s) :
    s = [] ∨ ∃ b0 pre rest, s = b0 :: (pre ++ rest) ∧ WellFormed rest
      ∧ runeShape b0 (pre ++ rest) = .valid (pre.length + 1) := by
  cases hs with
  | nil => exact Or.inl rfl
  | one b0 rest h hr => exact Or.inr ⟨b0, [], rest, rfl, hr, runeShape_one b0 rest h⟩
  | two b0 b1 rest h1 h2 h3 h4 hr =>
    obtain ⟨ha, hb⟩ := utf8First_two b0 h1 h2
    exact Or.inr ⟨b0, [b1], rest, rfl, hr, runeShape_two b0 b1 rest _ _ ha hb h3 h4⟩
  | threeE0 b1 b2 rest h1 h2 h3 h4 hr =>
    exact Or.inr ⟨224, [b1, b2], rest, rfl, hr,
      runeShape_three 224 b1 b2 rest 160 191 (by decide) (by decide) h1 h2 h3 h4⟩
  | three b0 b1 b2 rest h0 h1 h2 h3 h4 hr =>
    obtain ⟨ha, hb⟩ := utf8First_three b0 h0
    exact Or.inr ⟨b0, [b1, b2], rest, rfl, hr,
      runeShape_three b0 b1 b2 rest _ _ ha hb h1 h2 h3 h4⟩
  | threeED b1 b2 rest h1 h2 h3 h4 hr =>
    exact Or.inr ⟨237, [b1, b2], rest, rfl, hr,
      runeShape_three 237 b1 b2 rest 128 159 (by decide) (by decide) h1 h2 h3 h4⟩
  | fourF0 b1 b2 b3 rest h1 h2 h3 h4 h5 h6 hr =>
    exact Or.inr ⟨240, [b1, b2, b3], rest, rfl, hr,
      runeShape_four 240 b1 b2 b3 rest 144 191 (by decide) (by decide) h1 h2 h3 h4 h5 h6⟩
  | four b0 b1 b2 b3 rest h0a h0b h1 h2 h3 h4 h5 h6 hr =>
    obtain ⟨ha, hb⟩ := utf8First_four b0 h0a h0b
    exact Or.inr ⟨b0, [b1, b2, b3], rest, rfl, hr,
      runeShape_four b0 b1 b2 b3 rest _ _ ha hb h1 h2 h3 h4 h5 h6⟩
  | fourF4 b1 b2 b3 rest h1 h2 h3 h4 h5 h6 hr =>
    exact Or.inr ⟨244, [b1, b2, b3], rest, rfl, hr,
      runeShape_four 244 b1 b2 b3 rest 128 143 (by decide) (by decide) h1 h2 h3 h4 h5 h6⟩

theorem replaceIllFormed_keep : ∀ (pre rest : List Byte),
    replaceIllFormed (pre ++ rest) pre.length = pre ++ replaceIllFormed rest 0
  | [], rest => by simp
  | c :: pre, rest => by
    simp [replaceIllFormed, replaceIllFormed_keep pre rest]

theorem utf8DecoderBytes_keep : ∀ (pre rest : List Byte),
    utf8DecoderBytes (pre ++ rest) pre.length 0 = pre ++ utf8DecoderBytes rest 0 0
  | [], rest => by simp
  | c :: pre, rest => by
    simp [utf8DecoderBytes, utf8DecoderBytes_keep pre rest]

theorem utf8_fixed : ∀ (n : Nat) (s : List Byte), s.length ≤ n → WellFormed s →
    replaceIllFormed s 0 = s ∧ utf8DecoderBytes s 0 0 = s
  | 0, s, hn, _ => by
    have : s = [] := List.eq_nil_of_length_eq_zero (by omega)
    subst this
    simp [replaceIllFormed, utf8DecoderBytes]
  | n + 1, s, hn, hs => by
    rcases hs.head with rfl | ⟨b0, pre, rest, rfl, hr, hsh⟩
    · simp [replaceIllFormed, utf8DecoderBytes]
    · have hlen : rest.length ≤ n := by
        simp only [List.length_cons, List.length_append] at hn; omega
      obtain ⟨ih1, ih2⟩ := utf8_fixed n rest hlen hr
      constructor
      · simp only [replaceIllFormed, hsh, Nat.add_sub_cancel, replaceIllFormed_keep, ih1]
      · simp only [utf8DecoderBytes, hsh, Nat.add_sub_cancel, utf8DecoderBytes_keep, ih2]

/-- C17: UTF-8 text round trip.  For every well-formed UTF-8 string `s`, the utf8 codec
decodes `s` onto the nil slice to exactly the bytes of `s`, and encodes these bytes back to
`s`; `utf8` and `utf-8` both name this codec, and it is the default, so `from(s)` is a buffer
of the bytes of `s` and `toString()` on a buffer of these bytes returns `s`. -/
theorem C17_utf8_round_trip (h : Heap) (s : GoString) (hs : WellFormed s) :
    (∃ d, resultBytes (StringCodec.DecodeAppend utf8Codec h s nilSlice) = .ok d
        ∧ d = s ∧ StringCodec.Encode utf8Codec d = s)
      ∧ stringCodecs (ascii "utf8") = some utf8Codec
      ∧ stringCodecs (ascii "utf-8") = some utf8Codec
      ∧ (∀ (host : Host) (fuel : Nat), «from» host (fuel + 1) [.str s] = some (.ok s))
      ∧ (∀ (host : Host) (o : Nat), (host.objects o).exportType = .bytes →
          (host.objects o).exportBytes = s → proto_toString host (.obj o) [] = .ok s) := by
  obtain ⟨h1, h2⟩ := utf8_fixed s.length s (Nat.le_refl _) hs
  refine ⟨⟨s, ?_, rfl, ?_⟩, by decide, by decide, ?_, ?_⟩
  · have := DecodeAppend_nil utf8Codec h s
    simpa [decodedBytes, utf8Codec, h1] using this
  · simpa [StringCodec.Encode, utf8Codec, _utf8Codec.Encode] using h2
  · intro host fuel
    simp only [«from», _from, fromStep, Value.ExportType, Value.String, fromString_eq]
    simp [stringCodecs, ascii, decodedBytes, utf8Codec, h1]
  · intro host o he hb
    simp [proto_toString, Argument, getStringCodec, IsUndefined, Bytes, he, hb,
      StringCodec.Encode, utf8Codec, _utf8Codec.Encode, h2]

/-- C17 (witness): the text of the four characters U+0068, U+00E9, U+20AC and U+1F600, of
one, two, three and four bytes. -/
theorem C17_utf8_round_trip_witness :
    «from» plainHost 1 [.str [104, 195, 169, 226, 130, 172, 240, 159, 152, 128]]
      = some (.ok [104, 195, 169, 226, 130, 172, 240, 159, 152, 128]) :=
  (C17_utf8_round_trip [] [104, 195, 169, 226, 130, 172, 240, 159, 152, 128]
    (.one 104 _ (by decide)
      (.two 195 169 _ (by decide) (by decide) (by decide) (by decide)
        (.three 226 130 172 _ (Or.inl ⟨by decide, by decide⟩) (by decide) (by decide)
          (by decide) (by decide)
          (.fourF0 159 152 128 _ (by decide) (by decide) (by decide) (by decide) (by decide)
            (by decide) .nil))))).2.2.2.1 plainHost 0

end Buffer
